import Mathlib

/-!
Shallow embedding of the Harp lexer (`src/parse/lexer.go` final variant, together
with its token catalogue `token.go`).  Go strings are byte sequences, modelled as
`List Nat`; runes (Unicode code points) are modelled as `Nat`, with the zero rune
serving as the end-of-input sentinel exactly as in the Go code.  The imperative
lexer methods become state-passing functions on the `Lexer` structure; the
unbounded `for` loops of the Go readers become fuel-indexed recursions, always
invoked with fuel `input.length + 1`, which is shown sufficient on well-formed
states (each loop iteration advances the byte cursor).
-/

namespace Harp

/-! ### UTF-8 codec (Go `unicode/utf8`, an external dependency of the lexer) -/

/-- `utf8.RuneError`, the Unicode replacement character U+FFFD. -/
def RuneError : Nat := 0xFFFD

/-- Modelled from Go `utf8.DecodeRuneInString`: decodes the first rune of a byte
sequence, returning the rune and the number of bytes consumed.  An empty input
yields `(RuneError, 0)`; an ill-formed encoding yields `(RuneError, 1)`.  The
acceptance ranges for the second byte (`0xE0/0xED/0xF0/0xF4` special cases)
follow Go's `acceptRanges` table, which excludes overlong forms and surrogates. -/
def decodeRune : List Nat → Nat × Nat
| [] => (RuneError, 0)
| b0 :: rest =>
  if b0 < 0x80 then (b0, 1)
  else if b0 < 0xC2 then (RuneError, 1)
  else if b0 < 0xE0 then
    match rest with
    | b1 :: _ =>
      if 0x80 ≤ b1 ∧ b1 ≤ 0xBF then ((b0 - 0xC0) * 64 + (b1 - 0x80), 2)
      else (RuneError, 1)
    | [] => (RuneError, 1)
  else if b0 < 0xF0 then
    match rest with
    | b1 :: b2 :: _ =>
      if (if b0 = 0xE0 then 0xA0 else 0x80) ≤ b1 ∧ b1 ≤ (if b0 = 0xED then 0x9F else 0xBF)
          ∧ 0x80 ≤ b2 ∧ b2 ≤ 0xBF then
        ((b0 - 0xE0) * 4096 + (b1 - 0x80) * 64 + (b2 - 0x80), 3)
      else (RuneError, 1)
    | _ => (RuneError, 1)
  else if b0 < 0xF5 then
    match rest with
    | b1 :: b2 :: b3 :: _ =>
      if (if b0 = 0xF0 then 0x90 else 0x80) ≤ b1 ∧ b1 ≤ (if b0 = 0xF4 then 0x8F else 0xBF)
          ∧ 0x80 ≤ b2 ∧ b2 ≤ 0xBF ∧ 0x80 ≤ b3 ∧ b3 ≤ 0xBF then
        ((b0 - 0xF0) * 262144 + (b1 - 0x80) * 4096 + (b2 - 0x80) * 64 + (b3 - 0x80), 4)
      else (RuneError, 1)
    | _ => (RuneError, 1)
  else (RuneError, 1)

/-- Modelled from Go `utf8.EncodeRune` (the `string(rune)` conversion): the UTF-8
byte sequence of a code point; surrogates and out-of-range values encode the
replacement character. -/
def utf8Encode (r : Nat) : List Nat :=
  if r < 0x80 then [r]
  else if r < 0x800 then [0xC0 + r / 64, 0x80 + r % 64]
  else if 0xD800 ≤ r ∧ r ≤ 0xDFFF then [0xEF, 0xBF, 0xBD]
  else if r < 0x10000 then [0xE0 + r / 4096, 0x80 + r / 64 % 64, 0x80 + r % 64]
  else if r ≤ 0x10FFFF then
    [0xF0 + r / 262144, 0x80 + r / 4096 % 64, 0x80 + r / 64 % 64, 0x80 + r % 64]
  else [0xEF, 0xBF, 0xBD]

/-- The UTF-8 bytes of a Lean string literal, used to transcribe the Go string
literals appearing in the source and in concrete test inputs. -/
def strBytes (s : String) : List Nat :=
  (s.data.map (fun c => utf8Encode c.toNat)).flatten

/-- ASCII code of the lower-case hexadecimal digit for `n < 16` (Go `%x`). -/
def hexDigit (n : Nat) : Nat := if n < 10 then 48 + n else 87 + n

/-- Modelled from Go `fmt` verb `%x` on a string: two lower-case hex digits per
byte. -/
def hexBytes (bs : List Nat) : List Nat :=
  (bs.map (fun b => [hexDigit (b / 16), hexDigit (b % 16)])).flatten

/-! ### Rune predicates (`lexer.go`) -/

/-- Modelled from Go `unicode.IsLetter` (an external dependency), restricted to
the Unicode ranges exercised by this development: ASCII letters, the Latin-1
supplement and Latin extended letters (`0xC0-0xD6`, `0xD8-0xF6`, `0xF8-0x2C1`,
excluding `×` and `÷`), the Greek ranges `0x370-0x374`, `0x38E-0x3A1`,
`0x3A3-0x3F5`, the Hebrew letters `0x5D0-0x5EA`, Hiragana `0x3041-0x3096` and
the unified CJK ideographs `0x4E00-0x9FFF`.
Each range is copied from Go's `unicode.L` table. -/
def isLetter (r : Nat) : Bool :=
  decide ((65 ≤ r ∧ r ≤ 90) ∨ (97 ≤ r ∧ r ≤ 122) ∨ r = 0xAA ∨ r = 0xB5 ∨ r = 0xBA ∨
    (0xC0 ≤ r ∧ r ≤ 0xD6) ∨ (0xD8 ≤ r ∧ r ≤ 0xF6) ∨ (0xF8 ≤ r ∧ r ≤ 0x2C1) ∨
    (0x370 ≤ r ∧ r ≤ 0x374) ∨ (0x38E ≤ r ∧ r ≤ 0x3A1) ∨ (0x3A3 ≤ r ∧ r ≤ 0x3F5) ∨
    (0x5D0 ≤ r ∧ r ≤ 0x5EA) ∨ (0x3041 ≤ r ∧ r ≤ 0x3096) ∨ (0x4E00 ≤ r ∧ r ≤ 0x9FFF))

/-- `canStartSymbol`: a unicode letter or one of `_ - + / *`. -/
def canStartSymbol (run : Nat) : Bool :=
  isLetter run || decide (run = 95 ∨ run = 45 ∨ run = 43 ∨ run = 47 ∨ run = 42)

/-- `isDigit`: an ASCII digit. -/
def isDigit (run : Nat) : Bool := decide (48 ≤ run ∧ run ≤ 57)

/-- `isStoprune`: one of `( ) [ ] { }`, space, tab, carriage return, newline or
the zero rune. -/
def isStoprune (run : Nat) : Bool :=
  decide (run = 40 ∨ run = 41 ∨ run = 91 ∨ run = 93 ∨ run = 123 ∨ run = 125 ∨
    run = 32 ∨ run = 9 ∨ run = 13 ∨ run = 10 ∨ run = 0)

/-! ### Token model (`token.go`) -/

/-- Go `TokenType` is a string type. -/
abbrev TokenType := List Nat

def TOKEN_EOF : TokenType := strBytes "EOF"
def TOKEN_ILLEGAL : TokenType := strBytes "ILLEGAL"
def TOKEN_COMMENT : TokenType := strBytes "COMMENT"
def TOKEN_SYMBOL : TokenType := strBytes "SYMBOL"
def TOKEN_INT : TokenType := strBytes "INT"
def TOKEN_FLOAT : TokenType := strBytes "FLOAT"
def TOKEN_DQSTRING : TokenType := strBytes "STRING"
def TOKEN_LPAREN : TokenType := strBytes "LPAREN"
def TOKEN_RPAREN : TokenType := strBytes "RPAREN"
def TOKEN_LBRACE : TokenType := strBytes "LBRACE"
def TOKEN_RBRACE : TokenType := strBytes "RBRACE"
def TOKEN_LBRACKET : TokenType := strBytes "LBRACKET"
def TOKEN_RBRACKET : TokenType := strBytes "RBRACKET"
def TOKEN_DOT : TokenType := strBytes "DOT"
def TOKEN_COLON : TokenType := strBytes "COLON"
def TOKEN_QUOTE : TokenType := strBytes "QUOTE"
def TOKEN_UNDER : TokenType := strBytes "UNDER"
def TOKEN_PIPE : TokenType := strBytes "PIPE"

/-- Go `Token`: type, raw literal (a byte string), 1-based line and 0-based
column of the token start. -/
structure Token where
  type : TokenType
  Literal : List Nat
  Line : Int
  Column : Int
deriving DecidableEq

/-- The Go zero value `Token{}`, returned alongside a lexical error. -/
def Token.zero : Token := { type := [], Literal := [], Line := 0, Column := 0 }

/-! ### Failure taxonomy (`lexer.go`) -/

/-- Go `LexicalFailure` is a string type; the empty string means no failure. -/
abbrev LexicalFailure := List Nat

def TwoDotsInFloat : LexicalFailure := strBytes "met a second dot while reading float"
def NonDigitInNumber : LexicalFailure := strBytes "met non-digit while reading number"
def EofInString : LexicalFailure := strBytes "met EOF while reading string"
def NewlineInString : LexicalFailure := strBytes "met unescaped newline while reading string"
def InvalidAfterSymbol : LexicalFailure := strBytes "met invalid character after reading a symbol"

/-- `LexicalFailure.Cause`: the prefix of the failure text before the first
`": "` separator (the whole text when no separator occurs). -/
def Cause : LexicalFailure → List Nat
| 58 :: 32 :: _ => []
| c :: rest => c :: Cause rest
| [] => []

/-- `LexicalFailure.Same`: two failures are of the same kind when their causes
coincide. -/
def Same (lf other : LexicalFailure) : Bool := decide (Cause lf = Cause other)

/-- `LexicalFailure.WithStrhex`: appends the dual string/hex rendering of a
value, following the Go format string. -/
def WithStrhex (lf : LexicalFailure) (value : List Nat) : LexicalFailure :=
  lf ++ strBytes ": string(" ++ value ++ strBytes ") hex(" ++ hexBytes value ++ strBytes ")"

/-- Go `LexicalError`: the partially built token plus the failure reason. -/
structure LexicalError where
  token : Token
  reason : LexicalFailure
deriving DecidableEq

/-! ### Lexer state and cursor (`lexer.go`) -/

/-- The `Lexer` struct: input buffer, byte position of the current character,
the current rune, its byte width, and the line/column bookkeeping. -/
structure Lexer where
  input : List Nat
  currentPosition : Nat
  current : Nat
  currentWidth : Nat
  line : Int
  column : Int
deriving DecidableEq

/-- `forward`: advance the cursor by one decoded character; a no-op once the end
of the buffer has been reached. -/
def forward (lex : Lexer) : Lexer :=
  if lex.input.length ≤ lex.currentPosition then lex
  else
    let pos := lex.currentPosition + lex.currentWidth
    if lex.input.length ≤ pos then
      { lex with currentPosition := pos, column := lex.column + 1, current := 0 }
    else
      let rw := decodeRune (lex.input.drop pos)
      { lex with currentPosition := pos, column := lex.column + 1,
                 current := rw.1, currentWidth := rw.2 }

/-- `NewLexer`: empty input starts parked at EOF at line 1, column 0; non-empty
input performs one initial decode (column starts at -1 so the first character
lands at column 0). -/
def NewLexer (input : List Nat) : Lexer :=
  if input.length = 0 then
    { input := [], currentPosition := 0, current := 0, currentWidth := 0, line := 1, column := 0 }
  else
    forward { input := input, currentPosition := 0, current := 0, currentWidth := 0,
              line := 1, column := -1 }

/-- `nextLine`: bump the line counter and reset the column (without moving). -/
def nextLine (lex : Lexer) : Lexer :=
  { lex with line := lex.line + 1, column := -1 }

/-- `peekChar`: the rune value of the next single byte (not the next rune), or
the zero rune at the end of the buffer. -/
def peekChar (lex : Lexer) : Nat :=
  let npos := lex.currentPosition + lex.currentWidth
  if lex.input.length ≤ npos then 0 else lex.input.getD npos 0

/-- Loop body of `skipWhitespace`, fuel-indexed. -/
def skipWhitespaceF : Nat → Lexer → Lexer
| 0, lex => lex
| fuel + 1, lex =>
  if lex.current = 32 ∨ lex.current = 9 ∨ lex.current = 13 then
    skipWhitespaceF fuel (forward lex)
  else if lex.current = 10 then
    skipWhitespaceF fuel (forward (nextLine lex))
  else lex

/-- `skipWhitespace`: skip spaces, tabs and carriage returns; a newline
additionally moves the line/column bookkeeping to the next line. -/
def skipWhitespace (lex : Lexer) : Lexer :=
  skipWhitespaceF (lex.input.length + 1) lex

/-- `monotok`: a single-rune token at the current position. -/
def monotok (lex : Lexer) (tokenType : TokenType) : Token :=
  { type := tokenType, Literal := utf8Encode lex.current, Line := lex.line, Column := lex.column }

/-! ### Readers (`lexer.go`) -/

/-- Loop of `readComment`: forward until newline or end of input (consuming
neither). -/
def readCommentF : Nat → Lexer → Lexer
| 0, lex => lex
| fuel + 1, lex =>
  if lex.current ≠ 10 ∧ lex.current ≠ 0 then readCommentF fuel (forward lex) else lex

/-- `readComment` as a `reader`: never fails. -/
def readComment (lex : Lexer) (tok : Token) : Lexer × Token × LexicalFailure :=
  (readCommentF (lex.input.length + 1) lex, tok, [])

/-- Loop of `readNumber`: digits stay, a first dot promotes `INT` to `FLOAT`, a
second dot fails with `TwoDotsInFloat`, a stop rune accepts, anything else fails
with `NonDigitInNumber`. -/
def readNumberF : Nat → Lexer → Token → Lexer × Token × LexicalFailure
| 0, lex, tok => (lex, tok, [])
| fuel + 1, lex, tok =>
  if lex.current = 46 then
    if tok.type = TOKEN_FLOAT then (lex, tok, TwoDotsInFloat)
    else readNumberF fuel (forward lex) { tok with type := TOKEN_FLOAT }
  else if isStoprune lex.current then (lex, tok, [])
  else if ¬ isDigit lex.current then (lex, tok, NonDigitInNumber)
  else readNumberF fuel (forward lex) tok

/-- `readNumber` as a `reader`. -/
def readNumber (lex : Lexer) (tok : Token) : Lexer × Token × LexicalFailure :=
  readNumberF (lex.input.length + 1) lex tok

/-- Loop of `readString`: fails at end of input or at an unescaped newline,
succeeds past a closing quote, and skips the character following a backslash. -/
def readStringF : Nat → Lexer → Lexer × LexicalFailure
| 0, lex => (lex, [])
| fuel + 1, lex =>
  if lex.current = 0 then (lex, EofInString)
  else if lex.current = 10 then (lex, NewlineInString)
  else if lex.current = 34 then (forward lex, [])
  else if lex.current = 92 then readStringF fuel (forward (forward lex))
  else readStringF fuel (forward lex)

/-- `readString` as a `reader`: consumes the opening quote, then loops. -/
def readString (lex : Lexer) (tok : Token) : Lexer × Token × LexicalFailure :=
  let lex1 := forward lex
  let r := readStringF (lex.input.length + 1) lex1
  (r.1, tok, r.2)

/-- Loop of `readSymbol`: the maximal run of symbol characters and digits. -/
def readSymbolF : Nat → Lexer → Lexer
| 0, lex => lex
| fuel + 1, lex =>
  if canStartSymbol lex.current ∨ isDigit lex.current then readSymbolF fuel (forward lex)
  else lex

/-- `readSymbol` as a `reader`: after the run, the next character must be a stop
rune, or a dot whose following byte starts a symbol; otherwise the failure is
`InvalidAfterSymbol` with the offending one-or-two character suffix attached. -/
def readSymbol (lex : Lexer) (tok : Token) : Lexer × Token × LexicalFailure :=
  let lex1 := readSymbolF (lex.input.length + 1) lex
  if isStoprune lex1.current ∨ (lex1.current = 46 ∧ canStartSymbol (peekChar lex1)) then
    (lex1, tok, [])
  else
    let after := utf8Encode lex1.current ++
      (if lex1.current = 46 then utf8Encode (peekChar lex1) else [])
    (lex1, tok, WithStrhex InvalidAfterSymbol after)

/-- The Go slicing operator `input[a:b]` on byte strings. -/
def slice (input : List Nat) (a b : Nat) : List Nat := (input.drop a).take (b - a)

/-- The token skeleton `tok` built at the start of `read`: requested type, empty
literal, current line and column. -/
def tokStart (typ : TokenType) (lex : Lexer) : Token :=
  { type := typ, Literal := [], Line := lex.line, Column := lex.column }

/-- `read`: builds the token skeleton at the current position, runs the reader,
slices the literal as the exact source bytes the reader moved across, and wraps
a non-empty failure into a `LexicalError` (returning the zero token with it). -/
def read (fn : Lexer → Token → Lexer × Token × LexicalFailure) (typ : TokenType)
    (lex : Lexer) : Lexer × Token × Option LexicalError :=
  let tok : Token := tokStart typ lex
  let start := lex.currentPosition
  let r := fn lex tok
  let tok2 := { r.2.1 with Literal := slice r.1.input start r.1.currentPosition }
  if r.2.2 ≠ [] then (r.1, Token.zero, some { token := tok2, reason := r.2.2 })
  else (r.1, tok2, none)

/-- The dispatch switch of `NextToken`, applied after whitespace skipping. -/
def dispatch (lex : Lexer) : Lexer × Token × Option LexicalError :=
  if lex.current = 40 then (forward lex, monotok lex TOKEN_LPAREN, none)
  else if lex.current = 41 then (forward lex, monotok lex TOKEN_RPAREN, none)
  else if lex.current = 123 then (forward lex, monotok lex TOKEN_LBRACE, none)
  else if lex.current = 125 then (forward lex, monotok lex TOKEN_RBRACE, none)
  else if lex.current = 91 then (forward lex, monotok lex TOKEN_LBRACKET, none)
  else if lex.current = 93 then (forward lex, monotok lex TOKEN_RBRACKET, none)
  else if lex.current = 46 then
    if isDigit (peekChar lex) then read readNumber TOKEN_INT lex
    else (forward lex, monotok lex TOKEN_DOT, none)
  else if lex.current = 58 then (forward lex, monotok lex TOKEN_COLON, none)
  else if lex.current = 124 then (forward lex, monotok lex TOKEN_PIPE, none)
  else if lex.current = 39 then (forward lex, monotok lex TOKEN_QUOTE, none)
  else if lex.current = 95 then (forward lex, monotok lex TOKEN_UNDER, none)
  else if lex.current = 34 then read readString TOKEN_DQSTRING lex
  else if lex.current = 59 then read readComment TOKEN_COMMENT lex
  else if lex.current = 0 then
    (forward lex,
     { type := TOKEN_EOF, Literal := [], Line := lex.line, Column := lex.column }, none)
  else if canStartSymbol lex.current then read readSymbol TOKEN_SYMBOL lex
  else if isDigit lex.current then read readNumber TOKEN_INT lex
  else (forward lex, monotok lex TOKEN_ILLEGAL, none)

/-- `NextToken`: skip whitespace, then dispatch on the current character.  The
returned triple is the mutated lexer, the produced token, and the optional
lexical error (which carries the partial token; the token component is then the
Go zero value). -/
def NextToken (lex : Lexer) : Lexer × Token × Option LexicalError :=
  dispatch (skipWhitespace lex)

/-! ### Drivers and specification-side functions -/

/-- Iterated `forward`. -/
def forwardN : Nat → Lexer → Lexer
| 0, lex => lex
| n + 1, lex => forwardN n (forward lex)

/-- Exhaustive driver: call `NextToken` until an `EOF` token is produced (or the
fuel runs out), collecting every produced token/error pair. -/
def lexAll : Nat → Lexer → List (Token × Option LexicalError)
| 0, _ => []
| fuel + 1, lex =>
  let r := NextToken lex
  if r.2.1.type = TOKEN_EOF then [(r.2.1, r.2.2)]
  else (r.2.1, r.2.2) :: lexAll fuel r.1

/-- The literal a `NextToken` result delivers: the token's literal on success,
the literal of the error-carried partial token on failure. -/
def litOf (r : Lexer × Token × Option LexicalError) : List Nat :=
  match r.2.2 with
  | some e => e.token.Literal
  | none => r.2.1.Literal

/-- The pieces of the round-trip decomposition: for each call, the exact
whitespace bytes skipped, followed by the literal of the produced token (the
error-carried token when the call fails). -/
def lexPieces : Nat → Lexer → List (List Nat)
| 0, _ => []
| fuel + 1, lex =>
  let lexw := skipWhitespace lex
  let ws := slice lex.input lex.currentPosition lexw.currentPosition
  let r := NextToken lex
  if r.2.1.type = TOKEN_EOF then [ws ++ litOf r]
  else (ws ++ litOf r) :: lexPieces fuel r.1

/-- Whether a driver transcript is non-empty and finishes with an `EOF` token. -/
def endsInEOF : List (Token × Option LexicalError) → Bool
| [] => false
| [r] => decide (r.1.type = TOKEN_EOF)
| _ :: rest => endsInEOF rest

/-- Specification-side maximal run (from the spec wording of 4.5): the longest
prefix of the byte sequence made of decoded characters that can start or
continue a symbol. -/
def symbolRunF : Nat → List Nat → List Nat
| 0, _ => []
| fuel + 1, s =>
  let rw := decodeRune s
  if canStartSymbol rw.1 ∨ isDigit rw.1 then s.take rw.2 ++ symbolRunF fuel (s.drop rw.2)
  else []

/-- Fuel-closed form of `symbolRunF`. -/
def symbolRun (s : List Nat) : List Nat := symbolRunF s.length s

/-- Fuel-indexed check that a byte sequence is cleanly UTF-8 decodable: every
decoded rune is non-zero and re-encodes to exactly the bytes it was decoded
from (this rules out NUL bytes and ill-formed encodings). -/
def utf8CleanF : Nat → List Nat → Bool
| _, [] => true
| 0, _ :: _ => false
| fuel + 1, b :: rest =>
  let s := b :: rest
  let rw := decodeRune s
  decide (rw.1 ≠ 0) && decide (utf8Encode rw.1 = s.take rw.2) && utf8CleanF fuel (s.drop rw.2)

/-- Fuel-closed form of `utf8CleanF`. -/
def utf8Clean (s : List Nat) : Bool := utf8CleanF s.length s

/-- Lexer states reachable from `NewLexer` by `NextToken` steps. -/
inductive Reachable (input : List Nat) : Lexer → Prop
| base : Reachable input (NewLexer input)
| step {lex : Lexer} : Reachable input lex → Reachable input (NextToken lex).1

/-- Cursor well-formedness: the byte position never exceeds the buffer, the
current rune is the zero sentinel exactly at the end, and otherwise the current
rune and width are the decode at the current position. -/
structure WF (lex : Lexer) : Prop where
  pos_le : lex.currentPosition ≤ lex.input.length
  at_end : lex.input.length ≤ lex.currentPosition → lex.current = 0
  decoded : lex.currentPosition < lex.input.length →
    lex.current = (decodeRune (lex.input.drop lex.currentPosition)).1 ∧
    lex.currentWidth = (decodeRune (lex.input.drop lex.currentPosition)).2

/-! ### Basic facts about the UTF-8 codec -/

theorem decodeRune_width_pos (b : Nat) (rest : List Nat) :
    1 ≤ (decodeRune (b :: rest)).2 := by
  rcases rest with _ | ⟨b1, _ | ⟨b2, _ | ⟨b3, rest⟩⟩⟩ <;>
    simp only [decodeRune] <;> split_ifs <;> simp

theorem decodeRune_width_le (s : List Nat) : (decodeRune s).2 ≤ s.length := by
  rcases s with _ | ⟨b, _ | ⟨b1, _ | ⟨b2, _ | ⟨b3, rest⟩⟩⟩⟩ <;>
    simp only [decodeRune] <;> (try split_ifs) <;> simp

theorem decodeRune_ne_zero (b : Nat) (rest : List Nat) (hb : b ≠ 0) :
    (decodeRune (b :: rest)).1 ≠ 0 := by
  rcases rest with _ | ⟨b1, _ | ⟨b2, _ | ⟨b3, rest⟩⟩⟩ <;>
    simp only [decodeRune, RuneError] <;> split_ifs <;> simp <;> omega

theorem decodeRune_ascii (b : Nat) (rest : List Nat)
    (h : (decodeRune (b :: rest)).1 < 0x80) : decodeRune (b :: rest) = (b, 1) := by
  rcases rest with _ | ⟨b1, _ | ⟨b2, _ | ⟨b3, rest⟩⟩⟩ <;>
    simp only [decodeRune, RuneError] at h ⊢ <;> split_ifs at h ⊢ <;> simp at h ⊢ <;> omega

/-! ### Slice algebra -/

theorem slice_refl (input : List Nat) (a : Nat) : slice input a a = [] := by
  simp [slice]

theorem slice_append (input : List Nat) (a b c : Nat) (hab : a ≤ b) (hbc : b ≤ c) :
    slice input a c = slice input a b ++ slice input b c := by
  unfold slice
  have hc : c - a = (b - a) + (c - b) := by omega
  have hd : a + (b - a) = b := by omega
  rw [hc, List.take_add, List.drop_drop, hd]

theorem slice_drop (input : List Nat) (a : Nat) :
    slice input a input.length = input.drop a := by
  unfold slice
  exact List.take_of_length_le (by simp)

theorem slice_eof (input : List Nat) (a b : Nat) (h : input.length ≤ a) :
    slice input a b = [] := by
  unfold slice
  rw [List.drop_eq_nil_of_le h]
  simp

theorem slice_one (input : List Nat) (a : Nat) (h : a < input.length) :
    slice input a (a + 1) = [input.getD a 0] := by
  unfold slice
  have h1 : a + 1 - a = 1 := by omega
  have h2 : input.getD a 0 = input[a] := List.getD_eq_getElem input 0 h
  rw [h1, List.drop_eq_getElem_cons h, h2, List.take_succ_cons, List.take_zero]

/-! ### Cursor lemmas -/

theorem forward_input (lex : Lexer) : (forward lex).input = lex.input := by
  simp only [forward]
  split_ifs <;> rfl

theorem forward_line (lex : Lexer) : (forward lex).line = lex.line := by
  simp only [forward]
  split_ifs <;> rfl

theorem forward_parked (lex : Lexer) (h : lex.input.length ≤ lex.currentPosition) :
    forward lex = lex := by
  simp only [forward, if_pos h]

theorem forward_pos (lex : Lexer) (h : lex.currentPosition < lex.input.length) :
    (forward lex).currentPosition = lex.currentPosition + lex.currentWidth := by
  simp only [forward]
  rw [if_neg (by omega)]
  split_ifs <;> rfl

theorem forward_column (lex : Lexer) (h : lex.currentPosition < lex.input.length) :
    (forward lex).column = lex.column + 1 := by
  simp only [forward]
  rw [if_neg (by omega)]
  split_ifs <;> rfl

theorem forward_pos_ge (lex : Lexer) :
    lex.currentPosition ≤ (forward lex).currentPosition := by
  by_cases h : lex.input.length ≤ lex.currentPosition
  · rw [forward_parked lex h]
  · rw [forward_pos lex (by omega)]
    omega

theorem drop_cons_of_lt (input : List Nat) (a : Nat) (h : a < input.length) :
    input.drop a = input.getD a 0 :: input.drop (a + 1) := by
  have h2 : input.getD a 0 = input[a] := List.getD_eq_getElem input 0 h
  rw [h2, List.drop_eq_getElem_cons h]

theorem WF.width_pos (lex : Lexer) (hwf : WF lex)
    (h : lex.currentPosition < lex.input.length) : 1 ≤ lex.currentWidth := by
  obtain ⟨-, hw⟩ := hwf.decoded h
  rw [hw, drop_cons_of_lt lex.input lex.currentPosition h]
  exact decodeRune_width_pos _ _

theorem WF.width_le (lex : Lexer) (hwf : WF lex)
    (h : lex.currentPosition < lex.input.length) :
    lex.currentPosition + lex.currentWidth ≤ lex.input.length := by
  obtain ⟨-, hw⟩ := hwf.decoded h
  have := decodeRune_width_le (lex.input.drop lex.currentPosition)
  rw [← hw] at this
  simp only [List.length_drop] at this
  omega

theorem forward_advance (lex : Lexer) (hwf : WF lex)
    (h : lex.currentPosition < lex.input.length) :
    lex.currentPosition < (forward lex).currentPosition := by
  rw [forward_pos lex h]
  have := hwf.width_pos lex h
  omega

theorem forward_WF (lex : Lexer) (hwf : WF lex) : WF (forward lex) := by
  by_cases h : lex.input.length ≤ lex.currentPosition
  · rw [forward_parked lex h]
    exact hwf
  · have hlt : lex.currentPosition < lex.input.length := by omega
    have hle := hwf.width_le lex hlt
    simp only [forward]
    rw [if_neg (by omega)]
    split_ifs with h2
    · exact ⟨by simpa using hle, fun _ => rfl, fun hc => by simp at hc; omega⟩
    · refine ⟨by simpa using hle, fun hc => by simp at hc; omega, fun _ => ⟨rfl, rfl⟩⟩

theorem NewLexer_input (input : List Nat) : (NewLexer input).input = input := by
  simp only [NewLexer]
  split_ifs with h
  · simp only [List.length_eq_zero] at h
    simp [h]
  · rw [forward_input]

theorem NewLexer_WF (input : List Nat) : WF (NewLexer input) := by
  simp only [NewLexer]
  split_ifs with h
  · simp only [List.length_eq_zero] at h
    subst h
    exact ⟨by simp, fun _ => rfl, by simp⟩
  · simp only [forward]
    split_ifs with h1
    · exact absurd (Nat.le_zero.mp h1) h
    · refine ⟨Nat.zero_le _, ?_, ?_⟩
      · intro hc
        exact absurd (Nat.le_zero.mp hc) h
      · intro _
        exact ⟨rfl, rfl⟩

/-! ### Fuel irrelevance for the specification-side recursions -/

theorem utf8CleanF_fuel_eq (f : Nat) :
    ∀ (g : Nat) (s : List Nat), s.length ≤ f → s.length ≤ g →
      utf8CleanF f s = utf8CleanF g s := by
  induction f with
  | zero =>
    intro g s hf _
    rw [List.length_eq_zero.mp (Nat.le_zero.mp hf)]
    cases g <;> rfl
  | succ f ih =>
    intro g s hf hg
    cases s with
    | nil => cases g <;> rfl
    | cons b rest =>
      cases g with
      | zero => simp at hg
      | succ g1 =>
        simp only [utf8CleanF]
        have hw := decodeRune_width_pos b rest
        have hlf : ((b :: rest).drop (decodeRune (b :: rest)).2).length ≤ f := by
          simp only [List.length_drop, List.length_cons] at *
          omega
        have hlg : ((b :: rest).drop (decodeRune (b :: rest)).2).length ≤ g1 := by
          simp only [List.length_drop, List.length_cons] at *
          omega
        rw [ih g1 _ hlf hlg]

theorem utf8Clean_eq_fuel (f : Nat) (s : List Nat) (h : s.length ≤ f) :
    utf8Clean s = utf8CleanF f s :=
  utf8CleanF_fuel_eq s.length f s (Nat.le_refl _) h

theorem utf8Clean_cons (b : Nat) (rest : List Nat) :
    utf8Clean (b :: rest) =
      (decide ((decodeRune (b :: rest)).1 ≠ 0) &&
       decide (utf8Encode (decodeRune (b :: rest)).1 = (b :: rest).take (decodeRune (b :: rest)).2) &&
       utf8Clean ((b :: rest).drop (decodeRune (b :: rest)).2)) := by
  have hw := decodeRune_width_pos b rest
  have hl : ((b :: rest).drop (decodeRune (b :: rest)).2).length ≤ rest.length := by
    simp only [List.length_drop, List.length_cons]
    omega
  rw [utf8Clean, List.length_cons, utf8CleanF, utf8Clean_eq_fuel rest.length _ hl]

theorem symbolRunF_fuel_eq (f : Nat) :
    ∀ (g : Nat) (s : List Nat), s.length ≤ f → s.length ≤ g →
      symbolRunF f s = symbolRunF g s := by
  induction f with
  | zero =>
    intro g s hf _
    rw [List.length_eq_zero.mp (Nat.le_zero.mp hf)]
    cases g <;> rfl
  | succ f ih =>
    intro g s hf hg
    cases s with
    | nil => cases g <;> rfl
    | cons b rest =>
      cases g with
      | zero => simp at hg
      | succ g1 =>
        simp only [symbolRunF]
        have hw := decodeRune_width_pos b rest
        split_ifs with hc
        · have hlf : ((b :: rest).drop (decodeRune (b :: rest)).2).length ≤ f := by
            simp only [List.length_drop, List.length_cons] at *
            omega
          have hlg : ((b :: rest).drop (decodeRune (b :: rest)).2).length ≤ g1 := by
            simp only [List.length_drop, List.length_cons] at *
            omega
          rw [ih g1 _ hlf hlg]
        · rfl

theorem symbolRun_eq_fuel (f : Nat) (s : List Nat) (h : s.length ≤ f) :
    symbolRun s = symbolRunF f s :=
  symbolRunF_fuel_eq s.length f s (Nat.le_refl _) h

theorem symbolRun_cons (b : Nat) (rest : List Nat) :
    symbolRun (b :: rest) =
      (if canStartSymbol (decodeRune (b :: rest)).1 ∨ isDigit (decodeRune (b :: rest)).1 then
        (b :: rest).take (decodeRune (b :: rest)).2 ++
          symbolRun ((b :: rest).drop (decodeRune (b :: rest)).2)
      else []) := by
  have hw := decodeRune_width_pos b rest
  have hl : ((b :: rest).drop (decodeRune (b :: rest)).2).length ≤ rest.length := by
    simp only [List.length_drop, List.length_cons]
    omega
  rw [symbolRun, List.length_cons, symbolRunF, symbolRun_eq_fuel rest.length _ hl]

/-! ### Cleanliness at the cursor -/

theorem current_pos_lt (lex : Lexer) (hwf : WF lex) (h : lex.current ≠ 0) :
    lex.currentPosition < lex.input.length := by
  by_contra hc
  exact h (hwf.at_end (by omega))

theorem ascii_at (lex : Lexer) (hwf : WF lex)
    (hlt : lex.currentPosition < lex.input.length) (h : lex.current < 0x80) :
    lex.input.getD lex.currentPosition 0 = lex.current ∧ lex.currentWidth = 1 := by
  obtain ⟨hc, hw⟩ := hwf.decoded hlt
  rw [drop_cons_of_lt lex.input lex.currentPosition hlt] at hc hw
  have := decodeRune_ascii (lex.input.getD lex.currentPosition 0)
    (lex.input.drop (lex.currentPosition + 1)) (by rw [← hc]; exact h)
  rw [this] at hc hw
  exact ⟨hc.symm, hw⟩

theorem clean_at (lex : Lexer) (hwf : WF lex)
    (hcl : utf8Clean (lex.input.drop lex.currentPosition) = true)
    (hlt : lex.currentPosition < lex.input.length) :
    lex.current ≠ 0 ∧
    utf8Encode lex.current =
      slice lex.input lex.currentPosition (lex.currentPosition + lex.currentWidth) ∧
    utf8Clean (lex.input.drop (lex.currentPosition + lex.currentWidth)) = true := by
  obtain ⟨hc, hw⟩ := hwf.decoded hlt
  rw [drop_cons_of_lt lex.input lex.currentPosition hlt] at hcl
  rw [utf8Clean_cons] at hcl
  rw [← drop_cons_of_lt lex.input lex.currentPosition hlt] at hcl
  simp only [Bool.and_eq_true, decide_eq_true_eq] at hcl
  obtain ⟨⟨h1, h2⟩, h3⟩ := hcl
  refine ⟨by rw [hc]; exact h1, ?_, ?_⟩
  · rw [hc, hw, h2]
    unfold slice
    congr 1
    omega
  · rw [List.drop_drop] at h3
    rw [hw]
    exact h3

theorem clean_zero_parked (lex : Lexer) (hwf : WF lex)
    (hcl : utf8Clean (lex.input.drop lex.currentPosition) = true)
    (h : lex.current = 0) : lex.input.length ≤ lex.currentPosition := by
  by_contra hc
  exact (clean_at lex hwf hcl (by omega)).1 h

theorem forward_clean (lex : Lexer) (hwf : WF lex)
    (hcl : utf8Clean (lex.input.drop lex.currentPosition) = true) :
    utf8Clean (lex.input.drop (forward lex).currentPosition) = true := by
  by_cases h : lex.input.length ≤ lex.currentPosition
  · rw [forward_parked lex h]
    exact hcl
  · rw [forward_pos lex (by omega)]
    exact (clean_at lex hwf hcl (by omega)).2.2

/-! ### `nextLine` lemmas -/

theorem nextLine_WF (lex : Lexer) (hwf : WF lex) : WF (nextLine lex) :=
  ⟨hwf.pos_le, hwf.at_end, hwf.decoded⟩

theorem nextLine_input (lex : Lexer) : (nextLine lex).input = lex.input := rfl

theorem nextLine_pos (lex : Lexer) :
    (nextLine lex).currentPosition = lex.currentPosition := rfl

theorem nextLine_line (lex : Lexer) : (nextLine lex).line = lex.line + 1 := rfl

/-! ### The whitespace-skipping invariant -/

theorem skipWSF_inv (fuel : Nat) :
    ∀ lex : Lexer, WF lex → lex.input.length - lex.currentPosition < fuel →
      (skipWhitespaceF fuel lex).input = lex.input ∧
      WF (skipWhitespaceF fuel lex) ∧
      lex.currentPosition ≤ (skipWhitespaceF fuel lex).currentPosition ∧
      ¬((skipWhitespaceF fuel lex).current = 32 ∨ (skipWhitespaceF fuel lex).current = 9 ∨
        (skipWhitespaceF fuel lex).current = 13 ∨ (skipWhitespaceF fuel lex).current = 10) ∧
      (skipWhitespaceF fuel lex).line =
        lex.line + ((slice lex.input lex.currentPosition
          (skipWhitespaceF fuel lex).currentPosition).count 10 : Int) ∧
      (utf8Clean (lex.input.drop lex.currentPosition) = true →
        utf8Clean (lex.input.drop (skipWhitespaceF fuel lex).currentPosition) = true) := by
  induction fuel with
  | zero =>
    intro lex hwf hf
    omega
  | succ fuel ih =>
    intro lex hwf hf
    by_cases h1 : lex.current = 32 ∨ lex.current = 9 ∨ lex.current = 13
    · have hne : lex.current ≠ 0 := by rcases h1 with h | h | h <;> simp [h]
      have hlt := current_pos_lt lex hwf hne
      have hascii := ascii_at lex hwf hlt (by rcases h1 with h | h | h <;> omega)
      have hpos1 : (forward lex).currentPosition = lex.currentPosition + 1 := by
        rw [forward_pos lex hlt, hascii.2]
      have hstep : skipWhitespaceF (fuel + 1) lex = skipWhitespaceF fuel (forward lex) := by
        simp only [skipWhitespaceF, if_pos h1]
      obtain ⟨i1, i2, i3, i4, i5, i6⟩ := ih (forward lex) (forward_WF lex hwf)
        (by rw [forward_input, hpos1]; omega)
      rw [forward_input] at i1
      rw [hstep]
      refine ⟨i1, i2, by omega, i4, ?_, ?_⟩
      · rw [i5, forward_input, forward_line, hpos1]
        rw [slice_append lex.input lex.currentPosition (lex.currentPosition + 1)
          (skipWhitespaceF fuel (forward lex)).currentPosition (by omega) (by omega)]
        rw [slice_one lex.input lex.currentPosition hlt, hascii.1]
        have hc10 : lex.current ≠ 10 := by rcases h1 with h | h | h <;> omega
        rw [List.count_append]
        simp only [List.count_cons, List.count_nil, beq_iff_eq]
        rw [if_neg hc10]
        push_cast
        ring
      · intro hcl
        have := forward_clean lex hwf hcl
        rw [forward_input, hpos1] at i6
        rw [hpos1] at this
        exact i6 this
    · by_cases h2 : lex.current = 10
      · have hne : lex.current ≠ 0 := by omega
        have hlt := current_pos_lt lex hwf hne
        have hascii := ascii_at lex hwf hlt (by omega)
        have hlt2 : (nextLine lex).currentPosition < (nextLine lex).input.length := hlt
        have hpos1 : (forward (nextLine lex)).currentPosition = lex.currentPosition + 1 := by
          rw [forward_pos (nextLine lex) hlt2, nextLine_pos]
          have : (nextLine lex).currentWidth = lex.currentWidth := rfl
          rw [this, hascii.2]
        have hstep : skipWhitespaceF (fuel + 1) lex =
            skipWhitespaceF fuel (forward (nextLine lex)) := by
          simp only [skipWhitespaceF, if_neg h1, if_pos h2]
        obtain ⟨i1, i2, i3, i4, i5, i6⟩ := ih (forward (nextLine lex))
          (forward_WF (nextLine lex) (nextLine_WF lex hwf))
          (by rw [forward_input, nextLine_input, hpos1]; omega)
        rw [forward_input, nextLine_input] at i1
        rw [hstep]
        refine ⟨i1, i2, by omega, i4, ?_, ?_⟩
        · rw [i5, forward_input, nextLine_input, forward_line, nextLine_line, hpos1]
          rw [slice_append lex.input lex.currentPosition (lex.currentPosition + 1)
            (skipWhitespaceF fuel (forward (nextLine lex))).currentPosition (by omega) (by omega)]
          rw [slice_one lex.input lex.currentPosition hlt, hascii.1, h2]
          rw [List.count_append]
          simp only [List.count_cons, List.count_nil, beq_iff_eq, if_pos rfl]
          push_cast
          ring
        · intro hcl
          have hcln : utf8Clean ((nextLine lex).input.drop (nextLine lex).currentPosition)
              = true := hcl
          have := forward_clean (nextLine lex) (nextLine_WF lex hwf) hcln
          rw [forward_input, nextLine_input, hpos1] at i6
          rw [nextLine_input, hpos1] at this
          exact i6 this
      · have hstep : skipWhitespaceF (fuel + 1) lex = lex := by
          simp only [skipWhitespaceF, if_neg h1, if_neg h2]
        rw [hstep]
        refine ⟨rfl, hwf, Nat.le_refl _, ?_, ?_, fun hcl => hcl⟩
        · push_neg at h1
          tauto
        · rw [slice_refl]
          simp

theorem skipWhitespace_inv (lex : Lexer) (hwf : WF lex) :
    (skipWhitespace lex).input = lex.input ∧
    WF (skipWhitespace lex) ∧
    lex.currentPosition ≤ (skipWhitespace lex).currentPosition ∧
    ¬((skipWhitespace lex).current = 32 ∨ (skipWhitespace lex).current = 9 ∨
      (skipWhitespace lex).current = 13 ∨ (skipWhitespace lex).current = 10) ∧
    (skipWhitespace lex).line =
      lex.line + ((slice lex.input lex.currentPosition
        (skipWhitespace lex).currentPosition).count 10 : Int) ∧
    (utf8Clean (lex.input.drop lex.currentPosition) = true →
      utf8Clean (lex.input.drop (skipWhitespace lex).currentPosition) = true) :=
  skipWSF_inv (lex.input.length + 1) lex hwf (by omega)

/-! ### Reader-loop invariants -/

theorem digit_not_stoprune (c : Nat) (h : isDigit c = true) : isStoprune c = false := by
  simp only [isDigit, decide_eq_true_eq] at h
  simp only [isStoprune, decide_eq_false_iff_not]
  omega

theorem readCommentF_inv (fuel : Nat) :
    ∀ lex : Lexer, WF lex → lex.input.length - lex.currentPosition < fuel →
      (readCommentF fuel lex).input = lex.input ∧
      WF (readCommentF fuel lex) ∧
      lex.currentPosition ≤ (readCommentF fuel lex).currentPosition ∧
      (readCommentF fuel lex).line = lex.line ∧
      (utf8Clean (lex.input.drop lex.currentPosition) = true →
        utf8Clean (lex.input.drop (readCommentF fuel lex).currentPosition) = true) ∧
      (lex.current ≠ 10 ∧ lex.current ≠ 0 →
        lex.currentPosition < (readCommentF fuel lex).currentPosition) := by
  induction fuel with
  | zero =>
    intro lex hwf hf
    omega
  | succ fuel ih =>
    intro lex hwf hf
    by_cases h1 : lex.current ≠ 10 ∧ lex.current ≠ 0
    · have hlt := current_pos_lt lex hwf h1.2
      have hadv := forward_advance lex hwf hlt
      have hstep : readCommentF (fuel + 1) lex = readCommentF fuel (forward lex) := by
        simp only [readCommentF, if_pos h1]
      obtain ⟨i1, i2, i3, i4, i5, -⟩ := ih (forward lex) (forward_WF lex hwf)
        (by rw [forward_input]; omega)
      rw [forward_input] at i1 i5
      rw [hstep]
      refine ⟨i1, i2, by omega, by rw [i4, forward_line], ?_, fun _ => by omega⟩
      intro hcl
      exact i5 (forward_clean lex hwf hcl)
    · have hstep : readCommentF (fuel + 1) lex = lex := by
        simp only [readCommentF, if_neg h1]
      rw [hstep]
      exact ⟨rfl, hwf, Nat.le_refl _, rfl, fun hcl => hcl, fun hc => absurd hc h1⟩

theorem readNumberF_inv (fuel : Nat) :
    ∀ (lex : Lexer) (tok : Token), WF lex → lex.input.length - lex.currentPosition < fuel →
      (readNumberF fuel lex tok).1.input = lex.input ∧
      WF (readNumberF fuel lex tok).1 ∧
      lex.currentPosition ≤ (readNumberF fuel lex tok).1.currentPosition ∧
      (readNumberF fuel lex tok).1.line = lex.line ∧
      (utf8Clean (lex.input.drop lex.currentPosition) = true →
        utf8Clean (lex.input.drop (readNumberF fuel lex tok).1.currentPosition) = true) ∧
      ((readNumberF fuel lex tok).2.1 = tok ∨
        (readNumberF fuel lex tok).2.1 = { tok with type := TOKEN_FLOAT }) ∧
      ((lex.current = 46 ∧ tok.type ≠ TOKEN_FLOAT) ∨ isDigit lex.current = true →
        lex.currentPosition < (readNumberF fuel lex tok).1.currentPosition) := by
  induction fuel with
  | zero =>
    intro lex tok hwf hf
    omega
  | succ fuel ih =>
    intro lex tok hwf hf
    by_cases h1 : lex.current = 46
    · by_cases h2 : tok.type = TOKEN_FLOAT
      · have hstep : readNumberF (fuel + 1) lex tok = (lex, tok, TwoDotsInFloat) := by
          simp only [readNumberF, if_pos h1, if_pos h2]
        rw [hstep]
        refine ⟨rfl, hwf, Nat.le_refl _, rfl, fun hcl => hcl, Or.inl rfl, ?_⟩
        rintro (⟨-, hc⟩ | hc)
        · exact absurd h2 hc
        · rw [h1] at hc
          simp [isDigit] at hc
      · have hlt := current_pos_lt lex hwf (by omega)
        have hadv := forward_advance lex hwf hlt
        have hstep : readNumberF (fuel + 1) lex tok =
            readNumberF fuel (forward lex) { tok with type := TOKEN_FLOAT } := by
          simp only [readNumberF, if_pos h1, if_neg h2]
        obtain ⟨i1, i2, i3, i4, i5, i6, -⟩ := ih (forward lex) { tok with type := TOKEN_FLOAT }
          (forward_WF lex hwf) (by rw [forward_input]; omega)
        rw [forward_input] at i1 i5
        rw [hstep]
        refine ⟨i1, i2, by omega, by rw [i4, forward_line], ?_, ?_, fun _ => by omega⟩
        · intro hcl
          exact i5 (forward_clean lex hwf hcl)
        · rcases i6 with i6 | i6 <;> rw [i6] <;> exact Or.inr rfl
    · by_cases h2 : isStoprune lex.current
      · have hstep : readNumberF (fuel + 1) lex tok = (lex, tok, []) := by
          simp only [readNumberF, if_neg h1, if_pos h2]
        rw [hstep]
        refine ⟨rfl, hwf, Nat.le_refl _, rfl, fun hcl => hcl, Or.inl rfl, ?_⟩
        rintro (⟨hc, -⟩ | hc)
        · exact absurd hc h1
        · rw [digit_not_stoprune lex.current hc] at h2
          simp at h2
      · by_cases h3 : isDigit lex.current
        · have hne : lex.current ≠ 0 := by
            simp only [isDigit, decide_eq_true_eq] at h3
            omega
          have hlt := current_pos_lt lex hwf hne
          have hadv := forward_advance lex hwf hlt
          have hstep : readNumberF (fuel + 1) lex tok = readNumberF fuel (forward lex) tok := by
            simp only [readNumberF, if_neg h1, if_neg h2]
            rw [if_neg (by simp [h3])]
          obtain ⟨i1, i2, i3, i4, i5, i6, -⟩ := ih (forward lex) tok
            (forward_WF lex hwf) (by rw [forward_input]; omega)
          rw [forward_input] at i1 i5
          rw [hstep]
          refine ⟨i1, i2, by omega, by rw [i4, forward_line], ?_, i6, fun _ => by omega⟩
          intro hcl
          exact i5 (forward_clean lex hwf hcl)
        · have hstep : readNumberF (fuel + 1) lex tok = (lex, tok, NonDigitInNumber) := by
            simp only [readNumberF, if_neg h1, if_neg h2]
            rw [if_pos (by simp [h3])]
          rw [hstep]
          refine ⟨rfl, hwf, Nat.le_refl _, rfl, fun hcl => hcl, Or.inl rfl, ?_⟩
          rintro (⟨hc, -⟩ | hc)
          · exact absurd hc h1
          · exact absurd hc h3

theorem readStringF_inv (fuel : Nat) :
    ∀ lex : Lexer, WF lex → lex.input.length - lex.currentPosition < fuel →
      (readStringF fuel lex).1.input = lex.input ∧
      WF (readStringF fuel lex).1 ∧
      lex.currentPosition ≤ (readStringF fuel lex).1.currentPosition ∧
      (readStringF fuel lex).1.line = lex.line ∧
      (utf8Clean (lex.input.drop lex.currentPosition) = true →
        utf8Clean (lex.input.drop (readStringF fuel lex).1.currentPosition) = true) ∧
      ((readStringF fuel lex).2 = [] →
        ∃ mid, slice lex.input lex.currentPosition (readStringF fuel lex).1.currentPosition =
          mid ++ [34]) := by
  induction fuel with
  | zero =>
    intro lex hwf hf
    omega
  | succ fuel ih =>
    intro lex hwf hf
    by_cases h0 : lex.current = 0
    · have hstep : readStringF (fuel + 1) lex = (lex, EofInString) := by
        simp only [readStringF, if_pos h0]
      rw [hstep]
      refine ⟨rfl, hwf, Nat.le_refl _, rfl, fun hcl => hcl, fun hc => ?_⟩
      have hc2 : EofInString = [] := hc
      exact absurd hc2 (by decide)
    · by_cases h10 : lex.current = 10
      · have hstep : readStringF (fuel + 1) lex = (lex, NewlineInString) := by
          simp only [readStringF, if_neg h0, if_pos h10]
        rw [hstep]
        refine ⟨rfl, hwf, Nat.le_refl _, rfl, fun hcl => hcl, fun hc => ?_⟩
        have hc2 : NewlineInString = [] := hc
        exact absurd hc2 (by decide)
      · by_cases h34 : lex.current = 34
        · have hlt := current_pos_lt lex hwf h0
          have hascii := ascii_at lex hwf hlt (by omega)
          have hpos1 : (forward lex).currentPosition = lex.currentPosition + 1 := by
            rw [forward_pos lex hlt, hascii.2]
          have hstep : readStringF (fuel + 1) lex = (forward lex, []) := by
            simp only [readStringF, if_neg h0, if_neg h10, if_pos h34]
          rw [hstep]
          refine ⟨forward_input lex, forward_WF lex hwf, ?_, forward_line lex,
            fun hcl => forward_clean lex hwf hcl, fun _ => ⟨[], ?_⟩⟩
          · show lex.currentPosition ≤ (forward lex).currentPosition
            omega
          · show slice lex.input lex.currentPosition (forward lex).currentPosition = [] ++ [34]
            rw [hpos1, slice_one lex.input lex.currentPosition hlt, hascii.1, h34]
            rfl
        · have hlt := current_pos_lt lex hwf h0
          by_cases h92 : lex.current = 92
          · have hadv1 := forward_advance lex hwf hlt
            have hge2 := forward_pos_ge (forward lex)
            have hstep : readStringF (fuel + 1) lex =
                readStringF fuel (forward (forward lex)) := by
              simp only [readStringF, if_neg h0, if_neg h10, if_neg h34, if_pos h92]
            obtain ⟨i1, i2, i3, i4, i5, i6⟩ := ih (forward (forward lex))
              (forward_WF (forward lex) (forward_WF lex hwf))
              (by rw [forward_input, forward_input]; omega)
            rw [forward_input, forward_input] at i1 i5 i6
            rw [hstep]
            refine ⟨i1, i2, by omega, by rw [i4, forward_line, forward_line], ?_, ?_⟩
            · intro hcl
              have hcl2 := forward_clean (forward lex) (forward_WF lex hwf)
                (by rw [forward_input]; exact forward_clean lex hwf hcl)
              rw [forward_input] at hcl2
              exact i5 hcl2
            · intro hsucc
              obtain ⟨mid, hmid⟩ := i6 hsucc
              refine ⟨slice lex.input lex.currentPosition
                (forward (forward lex)).currentPosition ++ mid, ?_⟩
              rw [slice_append lex.input lex.currentPosition
                (forward (forward lex)).currentPosition
                (readStringF fuel (forward (forward lex))).1.currentPosition
                (by omega) i3]
              rw [hmid, List.append_assoc]
          · have hadv1 := forward_advance lex hwf hlt
            have hstep : readStringF (fuel + 1) lex = readStringF fuel (forward lex) := by
              simp only [readStringF, if_neg h0, if_neg h10, if_neg h34, if_neg h92]
            obtain ⟨i1, i2, i3, i4, i5, i6⟩ := ih (forward lex) (forward_WF lex hwf)
              (by rw [forward_input]; omega)
            rw [forward_input] at i1 i5 i6
            rw [hstep]
            refine ⟨i1, i2, by omega, by rw [i4, forward_line], ?_, ?_⟩
            · intro hcl
              exact i5 (forward_clean lex hwf hcl)
            · intro hsucc
              obtain ⟨mid, hmid⟩ := i6 hsucc
              refine ⟨slice lex.input lex.currentPosition (forward lex).currentPosition
                ++ mid, ?_⟩
              rw [slice_append lex.input lex.currentPosition (forward lex).currentPosition
                (readStringF fuel (forward lex)).1.currentPosition (by omega) i3]
              rw [hmid, List.append_assoc]

theorem symchar_ne_zero (c : Nat)
    (h : canStartSymbol c = true ∨ isDigit c = true) : c ≠ 0 := by
  rintro rfl
  revert h
  decide

theorem readSymbolF_inv (fuel : Nat) :
    ∀ lex : Lexer, WF lex → lex.input.length - lex.currentPosition < fuel →
      (readSymbolF fuel lex).input = lex.input ∧
      WF (readSymbolF fuel lex) ∧
      lex.currentPosition ≤ (readSymbolF fuel lex).currentPosition ∧
      (readSymbolF fuel lex).line = lex.line ∧
      (utf8Clean (lex.input.drop lex.currentPosition) = true →
        utf8Clean (lex.input.drop (readSymbolF fuel lex).currentPosition) = true) ∧
      slice lex.input lex.currentPosition (readSymbolF fuel lex).currentPosition =
        symbolRun (lex.input.drop lex.currentPosition) ∧
      ¬(canStartSymbol (readSymbolF fuel lex).current = true ∨
        isDigit (readSymbolF fuel lex).current = true) ∧
      (canStartSymbol lex.current = true ∨ isDigit lex.current = true →
        lex.currentPosition < (readSymbolF fuel lex).currentPosition) := by
  induction fuel with
  | zero =>
    intro lex hwf hf
    omega
  | succ fuel ih =>
    intro lex hwf hf
    by_cases h1 : canStartSymbol lex.current = true ∨ isDigit lex.current = true
    · have hne := symchar_ne_zero lex.current h1
      have hlt := current_pos_lt lex hwf hne
      have hadv := forward_advance lex hwf hlt
      have hposw := forward_pos lex hlt
      obtain ⟨hdec1, hdec2⟩ := hwf.decoded hlt
      have hstep : readSymbolF (fuel + 1) lex = readSymbolF fuel (forward lex) := by
        simp only [readSymbolF]
        rw [if_pos (by simpa using h1)]
      obtain ⟨i1, i2, i3, i4, i5, i6, i7, -⟩ := ih (forward lex) (forward_WF lex hwf)
        (by rw [forward_input]; omega)
      rw [forward_input] at i1 i5 i6
      rw [hstep]
      refine ⟨i1, i2, by omega, by rw [i4, forward_line], ?_, ?_, i7, fun _ => by omega⟩
      · intro hcl
        exact i5 (forward_clean lex hwf hcl)
      · rw [slice_append lex.input lex.currentPosition (forward lex).currentPosition
          (readSymbolF fuel (forward lex)).currentPosition (by omega) i3]
        rw [i6]
        rw [drop_cons_of_lt lex.input lex.currentPosition hlt, symbolRun_cons]
        rw [← drop_cons_of_lt lex.input lex.currentPosition hlt]
        rw [← hdec1, ← hdec2]
        rw [if_pos (by simpa using h1)]
        congr 1
        · unfold slice
          rw [hposw]
          congr 1
          omega
        · rw [hposw, ← List.drop_drop]
    · have hstep : readSymbolF (fuel + 1) lex = lex := by
        simp only [readSymbolF]
        rw [if_neg (by simpa using h1)]
      rw [hstep]
      refine ⟨rfl, hwf, Nat.le_refl _, rfl, fun hcl => hcl, ?_, h1, fun hc => absurd hc h1⟩
      rw [slice_refl]
      by_cases hlt : lex.currentPosition < lex.input.length
      · obtain ⟨hdec1, -⟩ := hwf.decoded hlt
        rw [drop_cons_of_lt lex.input lex.currentPosition hlt, symbolRun_cons]
        rw [← drop_cons_of_lt lex.input lex.currentPosition hlt]
        rw [← hdec1]
        rw [if_neg (by simpa using h1)]
      · rw [List.drop_eq_nil_of_le (by omega)]
        rfl

/-! ### Facts about the `read` wrapper -/

theorem read_lexer (fn : Lexer → Token → Lexer × Token × LexicalFailure) (typ : TokenType)
    (lex : Lexer) :
    (read fn typ lex).1 = (fn lex (tokStart typ lex)).1 := by
  simp only [read]
  split_ifs <;> rfl

theorem read_err_none (fn : Lexer → Token → Lexer × Token × LexicalFailure) (typ : TokenType)
    (lex : Lexer) :
    ((read fn typ lex).2.2 = none ↔ (fn lex (tokStart typ lex)).2.2 = []) := by
  simp only [read]
  split_ifs with h
  · exact iff_of_false (by simp) h
  · exact iff_of_true rfl (not_not.mp h)

theorem read_token_success (fn : Lexer → Token → Lexer × Token × LexicalFailure)
    (typ : TokenType) (lex : Lexer)
    (h : (fn lex (tokStart typ lex)).2.2 = []) :
    read fn typ lex =
      ((fn lex (tokStart typ lex)).1,
       { (fn lex (tokStart typ lex)).2.1 with
         Literal := (slice (fn lex (tokStart typ lex)).1.input lex.currentPosition
           (fn lex (tokStart typ lex)).1.currentPosition) },
       none) := by
  simp only [read]
  rw [if_neg (by simp [h])]

theorem read_err_some (fn : Lexer → Token → Lexer × Token × LexicalFailure)
    (typ : TokenType) (lex : Lexer)
    (h : (fn lex (tokStart typ lex)).2.2 ≠ []) :
    read fn typ lex =
      ((fn lex (tokStart typ lex)).1,
       Token.zero,
       some { token := ({ (fn lex (tokStart typ lex)).2.1 with
                Literal := (slice (fn lex (tokStart typ lex)).1.input lex.currentPosition
                  (fn lex (tokStart typ lex)).1.currentPosition) }),
              reason := ((fn lex (tokStart typ lex)).2.2) }) := by
  simp only [read]
  rw [if_pos (by simp [h])]

theorem read_litOf (fn : Lexer → Token → Lexer × Token × LexicalFailure)
    (typ : TokenType) (lex : Lexer) :
    litOf (read fn typ lex) = slice (fn lex (tokStart typ lex)).1.input
      lex.currentPosition (fn lex (tokStart typ lex)).1.currentPosition := by
  by_cases h : (fn lex (tokStart typ lex)).2.2 = []
  · rw [read_token_success fn typ lex h]
    rfl
  · rw [read_err_some fn typ lex h]
    rfl

theorem read_type (fn : Lexer → Token → Lexer × Token × LexicalFailure)
    (typ : TokenType) (lex : Lexer) :
    (read fn typ lex).2.1.type = (fn lex (tokStart typ lex)).2.1.type ∨
    (read fn typ lex).2.1.type = [] := by
  by_cases h : (fn lex (tokStart typ lex)).2.2 = []
  · rw [read_token_success fn typ lex h]
    exact Or.inl rfl
  · rw [read_err_some fn typ lex h]
    exact Or.inr rfl

/-! ### Reader wrapper invariants -/

theorem readComment_inv (lex : Lexer) (tok : Token) (hwf : WF lex) :
    (readComment lex tok).1.input = lex.input ∧
    WF (readComment lex tok).1 ∧
    lex.currentPosition ≤ (readComment lex tok).1.currentPosition ∧
    (lex.current = 59 → lex.currentPosition < (readComment lex tok).1.currentPosition) ∧
    (readComment lex tok).1.line = lex.line ∧
    (readComment lex tok).2.1 = tok ∧
    (readComment lex tok).2.2 = [] ∧
    (utf8Clean (lex.input.drop lex.currentPosition) = true →
      utf8Clean (lex.input.drop (readComment lex tok).1.currentPosition) = true) := by
  obtain ⟨i1, i2, i3, i4, i5, i6⟩ := readCommentF_inv (lex.input.length + 1) lex hwf (by omega)
  exact ⟨i1, i2, i3, fun h59 => i6 (by omega), i4, rfl, rfl, i5⟩

theorem readNumber_inv (lex : Lexer) (tok : Token) (hwf : WF lex) :
    (readNumber lex tok).1.input = lex.input ∧
    WF (readNumber lex tok).1 ∧
    lex.currentPosition ≤ (readNumber lex tok).1.currentPosition ∧
    ((lex.current = 46 ∧ tok.type ≠ TOKEN_FLOAT) ∨ isDigit lex.current = true →
      lex.currentPosition < (readNumber lex tok).1.currentPosition) ∧
    (readNumber lex tok).1.line = lex.line ∧
    ((readNumber lex tok).2.1 = tok ∨
      (readNumber lex tok).2.1 = { tok with type := TOKEN_FLOAT }) ∧
    (utf8Clean (lex.input.drop lex.currentPosition) = true →
      utf8Clean (lex.input.drop (readNumber lex tok).1.currentPosition) = true) := by
  obtain ⟨i1, i2, i3, i4, i5, i6, i7⟩ :=
    readNumberF_inv (lex.input.length + 1) lex tok hwf (by omega)
  exact ⟨i1, i2, i3, i7, i4, i6, i5⟩

theorem readString_inv (lex : Lexer) (tok : Token) (hwf : WF lex) :
    (readString lex tok).1.input = lex.input ∧
    WF (readString lex tok).1 ∧
    lex.currentPosition ≤ (readString lex tok).1.currentPosition ∧
    (lex.current ≠ 0 → lex.currentPosition < (readString lex tok).1.currentPosition) ∧
    (readString lex tok).1.line = lex.line ∧
    (readString lex tok).2.1 = tok ∧
    (utf8Clean (lex.input.drop lex.currentPosition) = true →
      utf8Clean (lex.input.drop (readString lex tok).1.currentPosition) = true) ∧
    ((readString lex tok).2.2 = [] →
      ∃ mid, slice lex.input (forward lex).currentPosition
        (readString lex tok).1.currentPosition = mid ++ [34]) := by
  have hwf1 := forward_WF lex hwf
  obtain ⟨i1, i2, i3, i4, i5, i6⟩ := readStringF_inv (lex.input.length + 1) (forward lex) hwf1
    (by rw [forward_input]; omega)
  rw [forward_input] at i1 i5 i6
  have hle := forward_pos_ge lex
  simp only [readString]
  refine ⟨i1, i2, by omega, ?_, ?_, trivial, ?_, i6⟩
  · intro hne
    have := forward_advance lex hwf (current_pos_lt lex hwf hne)
    omega
  · rw [i4, forward_line]
  · intro hcl
    exact i5 (forward_clean lex hwf hcl)

theorem readSymbol_inv (lex : Lexer) (tok : Token) (hwf : WF lex) :
    (readSymbol lex tok).1.input = lex.input ∧
    WF (readSymbol lex tok).1 ∧
    lex.currentPosition ≤ (readSymbol lex tok).1.currentPosition ∧
    (canStartSymbol lex.current = true ∨ isDigit lex.current = true →
      lex.currentPosition < (readSymbol lex tok).1.currentPosition) ∧
    (readSymbol lex tok).1.line = lex.line ∧
    (readSymbol lex tok).2.1 = tok ∧
    (utf8Clean (lex.input.drop lex.currentPosition) = true →
      utf8Clean (lex.input.drop (readSymbol lex tok).1.currentPosition) = true) ∧
    slice lex.input lex.currentPosition (readSymbol lex tok).1.currentPosition =
      symbolRun (lex.input.drop lex.currentPosition) := by
  obtain ⟨i1, i2, i3, i4, i5, i6, i7, i8⟩ :=
    readSymbolF_inv (lex.input.length + 1) lex hwf (by omega)
  have hstate : (readSymbol lex tok).1 = readSymbolF (lex.input.length + 1) lex := by
    simp only [readSymbol]
    split_ifs <;> rfl
  have htok : (readSymbol lex tok).2.1 = tok := by
    simp only [readSymbol]
    split_ifs <;> rfl
  rw [hstate]
  exact ⟨i1, i2, i3, i8, i4, htok, i5, i6⟩

/-! ### Dispatch step equations -/

theorem sym_not_special (c : Nat) (hs : canStartSymbol c = true) :
    c ≠ 40 ∧ c ≠ 41 ∧ c ≠ 123 ∧ c ≠ 125 ∧ c ≠ 91 ∧ c ≠ 93 ∧ c ≠ 46 ∧ c ≠ 58 ∧
    c ≠ 124 ∧ c ≠ 39 ∧ c ≠ 34 ∧ c ≠ 59 ∧ c ≠ 0 := by
  simp only [canStartSymbol, isLetter, Bool.or_eq_true, decide_eq_true_eq] at hs
  rcases hs with hs | hs
  · omega
  · omega

theorem digit_not_sym (c : Nat) (h : isDigit c = true) : canStartSymbol c = false := by
  simp only [isDigit, decide_eq_true_eq] at h
  simp only [canStartSymbol, isLetter, Bool.or_eq_false_iff, decide_eq_false_iff_not]
  omega

theorem digit_not_special (c : Nat) (h : isDigit c = true) :
    c ≠ 40 ∧ c ≠ 41 ∧ c ≠ 123 ∧ c ≠ 125 ∧ c ≠ 91 ∧ c ≠ 93 ∧ c ≠ 46 ∧ c ≠ 58 ∧
    c ≠ 124 ∧ c ≠ 39 ∧ c ≠ 95 ∧ c ≠ 34 ∧ c ≠ 59 ∧ c ≠ 0 := by
  simp only [isDigit, decide_eq_true_eq] at h
  omega

theorem dispatch_at_lparen (lex : Lexer) (h : lex.current = 40) :
    dispatch lex = (forward lex, monotok lex TOKEN_LPAREN, none) := by
  simp only [dispatch, if_pos h]

theorem dispatch_at_rparen (lex : Lexer) (h : lex.current = 41) :
    dispatch lex = (forward lex, monotok lex TOKEN_RPAREN, none) := by
  simp [dispatch, h]

theorem dispatch_at_lbrace (lex : Lexer) (h : lex.current = 123) :
    dispatch lex = (forward lex, monotok lex TOKEN_LBRACE, none) := by
  simp [dispatch, h]

theorem dispatch_at_rbrace (lex : Lexer) (h : lex.current = 125) :
    dispatch lex = (forward lex, monotok lex TOKEN_RBRACE, none) := by
  simp [dispatch, h]

theorem dispatch_at_lbracket (lex : Lexer) (h : lex.current = 91) :
    dispatch lex = (forward lex, monotok lex TOKEN_LBRACKET, none) := by
  simp [dispatch, h]

theorem dispatch_at_rbracket (lex : Lexer) (h : lex.current = 93) :
    dispatch lex = (forward lex, monotok lex TOKEN_RBRACKET, none) := by
  simp [dispatch, h]

theorem dispatch_at_dot_float (lex : Lexer) (h : lex.current = 46)
    (hp : isDigit (peekChar lex) = true) :
    dispatch lex = read readNumber TOKEN_INT lex := by
  simp [dispatch, h, hp]

theorem dispatch_at_dot_bare (lex : Lexer) (h : lex.current = 46)
    (hp : ¬ isDigit (peekChar lex) = true) :
    dispatch lex = (forward lex, monotok lex TOKEN_DOT, none) := by
  simp [dispatch, h, hp]

theorem dispatch_at_colon (lex : Lexer) (h : lex.current = 58) :
    dispatch lex = (forward lex, monotok lex TOKEN_COLON, none) := by
  simp [dispatch, h]

theorem dispatch_at_pipe (lex : Lexer) (h : lex.current = 124) :
    dispatch lex = (forward lex, monotok lex TOKEN_PIPE, none) := by
  simp [dispatch, h]

theorem dispatch_at_quote (lex : Lexer) (h : lex.current = 39) :
    dispatch lex = (forward lex, monotok lex TOKEN_QUOTE, none) := by
  simp [dispatch, h]

theorem dispatch_at_under (lex : Lexer) (h : lex.current = 95) :
    dispatch lex = (forward lex, monotok lex TOKEN_UNDER, none) := by
  simp [dispatch, h]

theorem dispatch_at_string (lex : Lexer) (h : lex.current = 34) :
    dispatch lex = read readString TOKEN_DQSTRING lex := by
  simp [dispatch, h]

theorem dispatch_at_comment (lex : Lexer) (h : lex.current = 59) :
    dispatch lex = read readComment TOKEN_COMMENT lex := by
  simp [dispatch, h]

theorem dispatch_at_eof (lex : Lexer) (h : lex.current = 0) :
    dispatch lex = (forward lex,
      { type := TOKEN_EOF, Literal := [], Line := lex.line, Column := lex.column },
      none) := by
  simp [dispatch, h]

theorem dispatch_at_symbol (lex : Lexer) (hs : canStartSymbol lex.current = true)
    (h95 : lex.current ≠ 95) :
    dispatch lex = read readSymbol TOKEN_SYMBOL lex := by
  obtain ⟨n1, n2, n3, n4, n5, n6, n7, n8, n9, n10, n11, n12, n13⟩ :=
    sym_not_special lex.current hs
  simp only [dispatch]
  rw [if_neg n1, if_neg n2, if_neg n3, if_neg n4, if_neg n5, if_neg n6, if_neg n7,
    if_neg n8, if_neg n9, if_neg n10, if_neg h95, if_neg n11, if_neg n12, if_neg n13,
    if_pos hs]

theorem dispatch_at_digit (lex : Lexer) (hd : isDigit lex.current = true) :
    dispatch lex = read readNumber TOKEN_INT lex := by
  obtain ⟨m1, m2, m3, m4, m5, m6, m7, m8, m9, m10, m11, m12, m13, m14⟩ :=
    digit_not_special lex.current hd
  simp only [dispatch]
  rw [if_neg m1, if_neg m2, if_neg m3, if_neg m4, if_neg m5, if_neg m6, if_neg m7,
    if_neg m8, if_neg m9, if_neg m10, if_neg m11, if_neg m12, if_neg m13, if_neg m14,
    if_neg (by rw [digit_not_sym lex.current hd]; simp), if_pos hd]

theorem dispatch_at_illegal (lex : Lexer)
    (n1 : lex.current ≠ 40) (n2 : lex.current ≠ 41) (n3 : lex.current ≠ 123)
    (n4 : lex.current ≠ 125) (n5 : lex.current ≠ 91) (n6 : lex.current ≠ 93)
    (n7 : lex.current ≠ 46) (n8 : lex.current ≠ 58) (n9 : lex.current ≠ 124)
    (n10 : lex.current ≠ 39) (n11 : lex.current ≠ 95) (n12 : lex.current ≠ 34)
    (n13 : lex.current ≠ 59) (n14 : lex.current ≠ 0)
    (n15 : ¬ canStartSymbol lex.current = true) (n16 : ¬ isDigit lex.current = true) :
    dispatch lex = (forward lex, monotok lex TOKEN_ILLEGAL, none) := by
  simp only [dispatch]
  rw [if_neg n1, if_neg n2, if_neg n3, if_neg n4, if_neg n5, if_neg n6, if_neg n7,
    if_neg n8, if_neg n9, if_neg n10, if_neg n11, if_neg n12, if_neg n13, if_neg n14,
    if_neg n15, if_neg n16]

/-! ### The dispatch invariant -/

theorem mono_step_inv (lex : Lexer) (hwf : WF lex) (hne : lex.current ≠ 0) :
    (forward lex).input = lex.input ∧ WF (forward lex) ∧
    lex.currentPosition ≤ (forward lex).currentPosition ∧
    lex.currentPosition < (forward lex).currentPosition ∧
    (forward lex).line = lex.line := by
  have hadv := forward_advance lex hwf (current_pos_lt lex hwf hne)
  exact ⟨forward_input lex, forward_WF lex hwf, Nat.le_of_lt hadv, hadv, forward_line lex⟩

theorem dispatch_inv (lex : Lexer) (hwf : WF lex) :
    (dispatch lex).1.input = lex.input ∧
    WF (dispatch lex).1 ∧
    lex.currentPosition ≤ (dispatch lex).1.currentPosition ∧
    ((dispatch lex).2.1.type ≠ TOKEN_EOF →
      lex.currentPosition < (dispatch lex).1.currentPosition) ∧
    (dispatch lex).1.line = lex.line := by
  by_cases h1 : lex.current = 40
  · obtain ⟨m1, m2, m3, m4, m5⟩ := mono_step_inv lex hwf (by omega)
    rw [dispatch_at_lparen lex h1]
    exact ⟨m1, m2, m3, fun _ => m4, m5⟩
  by_cases h2 : lex.current = 41
  · obtain ⟨m1, m2, m3, m4, m5⟩ := mono_step_inv lex hwf (by omega)
    rw [dispatch_at_rparen lex h2]
    exact ⟨m1, m2, m3, fun _ => m4, m5⟩
  by_cases h3 : lex.current = 123
  · obtain ⟨m1, m2, m3, m4, m5⟩ := mono_step_inv lex hwf (by omega)
    rw [dispatch_at_lbrace lex h3]
    exact ⟨m1, m2, m3, fun _ => m4, m5⟩
  by_cases h4 : lex.current = 125
  · obtain ⟨m1, m2, m3, m4, m5⟩ := mono_step_inv lex hwf (by omega)
    rw [dispatch_at_rbrace lex h4]
    exact ⟨m1, m2, m3, fun _ => m4, m5⟩
  by_cases h5 : lex.current = 91
  · obtain ⟨m1, m2, m3, m4, m5⟩ := mono_step_inv lex hwf (by omega)
    rw [dispatch_at_lbracket lex h5]
    exact ⟨m1, m2, m3, fun _ => m4, m5⟩
  by_cases h6 : lex.current = 93
  · obtain ⟨m1, m2, m3, m4, m5⟩ := mono_step_inv lex hwf (by omega)
    rw [dispatch_at_rbracket lex h6]
    exact ⟨m1, m2, m3, fun _ => m4, m5⟩
  by_cases h7 : lex.current = 46
  · by_cases hp : isDigit (peekChar lex) = true
    · obtain ⟨j1, j2, j3, j4, j5, j6, j7⟩ := readNumber_inv lex (tokStart TOKEN_INT lex) hwf
      rw [dispatch_at_dot_float lex h7 hp, read_lexer readNumber TOKEN_INT lex]
      have hadv := j4 (Or.inl ⟨h7, show TOKEN_INT ≠ TOKEN_FLOAT by decide⟩)
      exact ⟨j1, j2, j3, fun _ => hadv, j5⟩
    · obtain ⟨m1, m2, m3, m4, m5⟩ := mono_step_inv lex hwf (by omega)
      rw [dispatch_at_dot_bare lex h7 hp]
      exact ⟨m1, m2, m3, fun _ => m4, m5⟩
  by_cases h8 : lex.current = 58
  · obtain ⟨m1, m2, m3, m4, m5⟩ := mono_step_inv lex hwf (by omega)
    rw [dispatch_at_colon lex h8]
    exact ⟨m1, m2, m3, fun _ => m4, m5⟩
  by_cases h9 : lex.current = 124
  · obtain ⟨m1, m2, m3, m4, m5⟩ := mono_step_inv lex hwf (by omega)
    rw [dispatch_at_pipe lex h9]
    exact ⟨m1, m2, m3, fun _ => m4, m5⟩
  by_cases h10 : lex.current = 39
  · obtain ⟨m1, m2, m3, m4, m5⟩ := mono_step_inv lex hwf (by omega)
    rw [dispatch_at_quote lex h10]
    exact ⟨m1, m2, m3, fun _ => m4, m5⟩
  by_cases h11 : lex.current = 95
  · obtain ⟨m1, m2, m3, m4, m5⟩ := mono_step_inv lex hwf (by omega)
    rw [dispatch_at_under lex h11]
    exact ⟨m1, m2, m3, fun _ => m4, m5⟩
  by_cases h12 : lex.current = 34
  · obtain ⟨j1, j2, j3, j4, j5, j6, j7, j8⟩ :=
      readString_inv lex (tokStart TOKEN_DQSTRING lex) hwf
    rw [dispatch_at_string lex h12, read_lexer readString TOKEN_DQSTRING lex]
    have hadv := j4 (by omega)
    exact ⟨j1, j2, j3, fun _ => hadv, j5⟩
  by_cases h13 : lex.current = 59
  · obtain ⟨j1, j2, j3, j4, j5, j6, j7, j8⟩ :=
      readComment_inv lex (tokStart TOKEN_COMMENT lex) hwf
    rw [dispatch_at_comment lex h13, read_lexer readComment TOKEN_COMMENT lex]
    have hadv := j4 h13
    exact ⟨j1, j2, j3, fun _ => hadv, j5⟩
  by_cases h14 : lex.current = 0
  · rw [dispatch_at_eof lex h14]
    exact ⟨forward_input lex, forward_WF lex hwf, forward_pos_ge lex,
      fun hne => absurd rfl hne, forward_line lex⟩
  by_cases h15 : canStartSymbol lex.current = true
  · obtain ⟨j1, j2, j3, j4, j5, j6, j7, j8⟩ :=
      readSymbol_inv lex (tokStart TOKEN_SYMBOL lex) hwf
    rw [dispatch_at_symbol lex h15 h11, read_lexer readSymbol TOKEN_SYMBOL lex]
    have hadv := j4 (Or.inl h15)
    exact ⟨j1, j2, j3, fun _ => hadv, j5⟩
  by_cases h16 : isDigit lex.current = true
  · obtain ⟨j1, j2, j3, j4, j5, j6, j7⟩ := readNumber_inv lex (tokStart TOKEN_INT lex) hwf
    rw [dispatch_at_digit lex h16, read_lexer readNumber TOKEN_INT lex]
    have hadv := j4 (Or.inr h16)
    exact ⟨j1, j2, j3, fun _ => hadv, j5⟩
  · obtain ⟨m1, m2, m3, m4, m5⟩ := mono_step_inv lex hwf h14
    rw [dispatch_at_illegal lex h1 h2 h3 h4 h5 h6 h7 h8 h9 h10 h11 h12 h13 h14 h15 h16]
    exact ⟨m1, m2, m3, fun _ => m4, m5⟩

/-! ### Dispatch slice decomposition (for the round-trip property) -/

theorem mono_step_slices (lex : Lexer) (hwf : WF lex)
    (hcl : utf8Clean (lex.input.drop lex.currentPosition) = true) (hne : lex.current ≠ 0) :
    utf8Clean (lex.input.drop (forward lex).currentPosition) = true ∧
    utf8Encode lex.current =
      slice lex.input lex.currentPosition (forward lex).currentPosition := by
  have hlt := current_pos_lt lex hwf hne
  obtain ⟨-, henc, -⟩ := clean_at lex hwf hcl hlt
  refine ⟨forward_clean lex hwf hcl, ?_⟩
  rw [forward_pos lex hlt]
  exact henc

theorem dispatch_slices (lex : Lexer) (hwf : WF lex)
    (hcl : utf8Clean (lex.input.drop lex.currentPosition) = true) :
    utf8Clean (lex.input.drop (dispatch lex).1.currentPosition) = true ∧
    litOf (dispatch lex) =
      slice lex.input lex.currentPosition (dispatch lex).1.currentPosition ∧
    ((dispatch lex).2.1.type = TOKEN_EOF →
      (dispatch lex).1.currentPosition = lex.currentPosition ∧
      lex.input.length ≤ lex.currentPosition) := by
  by_cases h1 : lex.current = 40
  · rw [dispatch_at_lparen lex h1]
    obtain ⟨c1, c2⟩ := mono_step_slices lex hwf hcl (by omega)
    exact ⟨c1, c2, fun hc => absurd hc (by decide : ¬ (TOKEN_LPAREN = TOKEN_EOF))⟩
  by_cases h2 : lex.current = 41
  · rw [dispatch_at_rparen lex h2]
    obtain ⟨c1, c2⟩ := mono_step_slices lex hwf hcl (by omega)
    exact ⟨c1, c2, fun hc => absurd hc (by decide : ¬ (TOKEN_RPAREN = TOKEN_EOF))⟩
  by_cases h3 : lex.current = 123
  · rw [dispatch_at_lbrace lex h3]
    obtain ⟨c1, c2⟩ := mono_step_slices lex hwf hcl (by omega)
    exact ⟨c1, c2, fun hc => absurd hc (by decide : ¬ (TOKEN_LBRACE = TOKEN_EOF))⟩
  by_cases h4 : lex.current = 125
  · rw [dispatch_at_rbrace lex h4]
    obtain ⟨c1, c2⟩ := mono_step_slices lex hwf hcl (by omega)
    exact ⟨c1, c2, fun hc => absurd hc (by decide : ¬ (TOKEN_RBRACE = TOKEN_EOF))⟩
  by_cases h5 : lex.current = 91
  · rw [dispatch_at_lbracket lex h5]
    obtain ⟨c1, c2⟩ := mono_step_slices lex hwf hcl (by omega)
    exact ⟨c1, c2, fun hc => absurd hc (by decide : ¬ (TOKEN_LBRACKET = TOKEN_EOF))⟩
  by_cases h6 : lex.current = 93
  · rw [dispatch_at_rbracket lex h6]
    obtain ⟨c1, c2⟩ := mono_step_slices lex hwf hcl (by omega)
    exact ⟨c1, c2, fun hc => absurd hc (by decide : ¬ (TOKEN_RBRACKET = TOKEN_EOF))⟩
  by_cases h7 : lex.current = 46
  · by_cases hp : isDigit (peekChar lex) = true
    · rw [dispatch_at_dot_float lex h7 hp]
      obtain ⟨j1, j2, j3, j4, j5, j6, j7⟩ := readNumber_inv lex (tokStart TOKEN_INT lex) hwf
      rw [read_lexer readNumber TOKEN_INT lex, read_litOf readNumber TOKEN_INT lex, j1]
      refine ⟨j7 hcl, rfl, fun hc => ?_⟩
      rcases read_type readNumber TOKEN_INT lex with ht | ht <;> rw [hc] at ht
      · rcases j6 with j6 | j6 <;> rw [j6] at ht
        · exact absurd ht.symm (by decide : ¬ (TOKEN_INT = TOKEN_EOF))
        · exact absurd ht (by decide : ¬ (TOKEN_EOF = TOKEN_FLOAT))
      · exact absurd ht (by decide : ¬ (TOKEN_EOF = ([] : TokenType)))
    · rw [dispatch_at_dot_bare lex h7 hp]
      obtain ⟨c1, c2⟩ := mono_step_slices lex hwf hcl (by omega)
      exact ⟨c1, c2, fun hc => absurd hc (by decide : ¬ (TOKEN_DOT = TOKEN_EOF))⟩
  by_cases h8 : lex.current = 58
  · rw [dispatch_at_colon lex h8]
    obtain ⟨c1, c2⟩ := mono_step_slices lex hwf hcl (by omega)
    exact ⟨c1, c2, fun hc => absurd hc (by decide : ¬ (TOKEN_COLON = TOKEN_EOF))⟩
  by_cases h9 : lex.current = 124
  · rw [dispatch_at_pipe lex h9]
    obtain ⟨c1, c2⟩ := mono_step_slices lex hwf hcl (by omega)
    exact ⟨c1, c2, fun hc => absurd hc (by decide : ¬ (TOKEN_PIPE = TOKEN_EOF))⟩
  by_cases h10 : lex.current = 39
  · rw [dispatch_at_quote lex h10]
    obtain ⟨c1, c2⟩ := mono_step_slices lex hwf hcl (by omega)
    exact ⟨c1, c2, fun hc => absurd hc (by decide : ¬ (TOKEN_QUOTE = TOKEN_EOF))⟩
  by_cases h11 : lex.current = 95
  · rw [dispatch_at_under lex h11]
    obtain ⟨c1, c2⟩ := mono_step_slices lex hwf hcl (by omega)
    exact ⟨c1, c2, fun hc => absurd hc (by decide : ¬ (TOKEN_UNDER = TOKEN_EOF))⟩
  by_cases h12 : lex.current = 34
  · rw [dispatch_at_string lex h12]
    obtain ⟨j1, j2, j3, j4, j5, j6, j7, j8⟩ :=
      readString_inv lex (tokStart TOKEN_DQSTRING lex) hwf
    rw [read_lexer readString TOKEN_DQSTRING lex, read_litOf readString TOKEN_DQSTRING lex, j1]
    refine ⟨j7 hcl, rfl, fun hc => ?_⟩
    rcases read_type readString TOKEN_DQSTRING lex with ht | ht <;> rw [hc] at ht
    · rw [j6] at ht
      exact absurd ht (by decide : ¬ (TOKEN_EOF = TOKEN_DQSTRING))
    · exact absurd ht (by decide : ¬ (TOKEN_EOF = ([] : TokenType)))
  by_cases h13 : lex.current = 59
  · rw [dispatch_at_comment lex h13]
    obtain ⟨j1, j2, j3, j4, j5, j6, j7, j8⟩ :=
      readComment_inv lex (tokStart TOKEN_COMMENT lex) hwf
    rw [read_lexer readComment TOKEN_COMMENT lex, read_litOf readComment TOKEN_COMMENT lex, j1]
    refine ⟨j8 hcl, rfl, fun hc => ?_⟩
    rcases read_type readComment TOKEN_COMMENT lex with ht | ht <;> rw [hc] at ht
    · rw [j6] at ht
      exact absurd ht (by decide : ¬ (TOKEN_EOF = TOKEN_COMMENT))
    · exact absurd ht (by decide : ¬ (TOKEN_EOF = ([] : TokenType)))
  by_cases h14 : lex.current = 0
  · rw [dispatch_at_eof lex h14]
    have hpark := clean_zero_parked lex hwf hcl h14
    rw [forward_parked lex hpark]
    exact ⟨hcl, (slice_refl lex.input lex.currentPosition).symm, fun _ => ⟨rfl, hpark⟩⟩
  by_cases h15 : canStartSymbol lex.current = true
  · rw [dispatch_at_symbol lex h15 h11]
    obtain ⟨j1, j2, j3, j4, j5, j6, j7, j8⟩ :=
      readSymbol_inv lex (tokStart TOKEN_SYMBOL lex) hwf
    rw [read_lexer readSymbol TOKEN_SYMBOL lex, read_litOf readSymbol TOKEN_SYMBOL lex, j1]
    refine ⟨j7 hcl, rfl, fun hc => ?_⟩
    rcases read_type readSymbol TOKEN_SYMBOL lex with ht | ht <;> rw [hc] at ht
    · rw [j6] at ht
      exact absurd ht (by decide : ¬ (TOKEN_EOF = TOKEN_SYMBOL))
    · exact absurd ht (by decide : ¬ (TOKEN_EOF = ([] : TokenType)))
  by_cases h16 : isDigit lex.current = true
  · rw [dispatch_at_digit lex h16]
    obtain ⟨j1, j2, j3, j4, j5, j6, j7⟩ := readNumber_inv lex (tokStart TOKEN_INT lex) hwf
    rw [read_lexer readNumber TOKEN_INT lex, read_litOf readNumber TOKEN_INT lex, j1]
    refine ⟨j7 hcl, rfl, fun hc => ?_⟩
    rcases read_type readNumber TOKEN_INT lex with ht | ht <;> rw [hc] at ht
    · rcases j6 with j6 | j6 <;> rw [j6] at ht
      · exact absurd ht.symm (by decide : ¬ (TOKEN_INT = TOKEN_EOF))
      · exact absurd ht (by decide : ¬ (TOKEN_EOF = TOKEN_FLOAT))
    · exact absurd ht (by decide : ¬ (TOKEN_EOF = ([] : TokenType)))
  · rw [dispatch_at_illegal lex h1 h2 h3 h4 h5 h6 h7 h8 h9 h10 h11 h12 h13 h14 h15 h16]
    obtain ⟨c1, c2⟩ := mono_step_slices lex hwf hcl h14
    exact ⟨c1, c2, fun hc => absurd hc (by decide : ¬ (TOKEN_ILLEGAL = TOKEN_EOF))⟩

/-! ### `NextToken`-level invariants -/

theorem NextToken_inv (lex : Lexer) (hwf : WF lex) :
    (NextToken lex).1.input = lex.input ∧
    WF (NextToken lex).1 ∧
    lex.currentPosition ≤ (NextToken lex).1.currentPosition ∧
    ((NextToken lex).2.1.type ≠ TOKEN_EOF →
      lex.currentPosition < (NextToken lex).1.currentPosition) ∧
    (NextToken lex).1.line = (skipWhitespace lex).line ∧
    lex.currentPosition ≤ (skipWhitespace lex).currentPosition ∧
    (skipWhitespace lex).currentPosition ≤ (NextToken lex).1.currentPosition := by
  rw [show NextToken lex = dispatch (skipWhitespace lex) from rfl]
  obtain ⟨w1, w2, w3, w4, w5, w6⟩ := skipWhitespace_inv lex hwf
  obtain ⟨d1, d2, d3, d4, d5⟩ := dispatch_inv (skipWhitespace lex) w2
  rw [w1] at d1
  exact ⟨d1, d2, Nat.le_trans w3 d3, fun he => by have := d4 he; omega, d5, w3, d3⟩

theorem NextToken_slices (lex : Lexer) (hwf : WF lex)
    (hcl : utf8Clean (lex.input.drop lex.currentPosition) = true) :
    utf8Clean (lex.input.drop (NextToken lex).1.currentPosition) = true ∧
    lex.input.drop lex.currentPosition =
      (slice lex.input lex.currentPosition (skipWhitespace lex).currentPosition ++
        litOf (NextToken lex)) ++ lex.input.drop (NextToken lex).1.currentPosition ∧
    ((NextToken lex).2.1.type = TOKEN_EOF →
      (NextToken lex).1.currentPosition = lex.input.length) := by
  rw [show NextToken lex = dispatch (skipWhitespace lex) from rfl]
  obtain ⟨w1, w2, w3, w4, w5, w6⟩ := skipWhitespace_inv lex hwf
  have hclw := w6 hcl
  obtain ⟨s1, s2, s3⟩ := by
    have := dispatch_slices (skipWhitespace lex) w2 (by rw [w1]; exact hclw)
    rwa [w1] at this
  have hwsle : (skipWhitespace lex).currentPosition ≤ lex.input.length := by
    have := w2.pos_le
    rwa [w1] at this
  have hple : (dispatch (skipWhitespace lex)).1.currentPosition ≤ lex.input.length := by
    obtain ⟨d1, d2, -, -, -⟩ := dispatch_inv (skipWhitespace lex) w2
    have := d2.pos_le
    rwa [d1, w1] at this
  obtain ⟨-, -, d3, -, -⟩ := dispatch_inv (skipWhitespace lex) w2
  refine ⟨s1, ?_, ?_⟩
  · have hexp : lex.input.drop lex.currentPosition =
        slice lex.input lex.currentPosition lex.input.length := by
      rw [slice_drop]
    rw [hexp]
    rw [slice_append lex.input lex.currentPosition (skipWhitespace lex).currentPosition
      lex.input.length w3 hwsle]
    rw [slice_append lex.input (skipWhitespace lex).currentPosition
      (dispatch (skipWhitespace lex)).1.currentPosition lex.input.length d3 hple]
    rw [← s2, slice_drop, List.append_assoc]
  · intro he
    obtain ⟨hpe, hple2⟩ := s3 he
    show (dispatch (skipWhitespace lex)).1.currentPosition = lex.input.length
    omega

/-! ### Reachability -/

theorem NewLexer_line (input : List Nat) : (NewLexer input).line = 1 := by
  simp only [NewLexer]
  split_ifs
  · rfl
  · rw [forward_line]

theorem Reachable_WF (input : List Nat) (lex : Lexer) (h : Reachable input lex) :
    WF lex ∧ lex.input = input := by
  induction h with
  | base => exact ⟨NewLexer_WF input, NewLexer_input input⟩
  | step hr ih =>
    obtain ⟨hwf, hinp⟩ := ih
    obtain ⟨d1, d2, -, -, -⟩ := NextToken_inv _ hwf
    exact ⟨d2, by rw [d1, hinp]⟩

theorem Reachable_line (input : List Nat) (lex : Lexer) (h : Reachable input lex) :
    1 ≤ lex.line := by
  induction h with
  | base => rw [NewLexer_line]
  | step hr ih =>
    rename_i lex0
    obtain ⟨hwf, -⟩ := Reachable_WF input lex0 hr
    obtain ⟨-, -, -, -, d5, -, -⟩ := NextToken_inv lex0 hwf
    obtain ⟨-, -, -, -, w5, -⟩ := skipWhitespace_inv lex0 hwf
    rw [d5, w5]
    have : (0 : Int) ≤ ((slice lex0.input lex0.currentPosition
        (skipWhitespace lex0).currentPosition).count 10 : Int) := by positivity
    omega

/-! ### The parked (end-of-buffer) terminal state -/

theorem skipWhitespace_at_zero (lex : Lexer) (h0 : lex.current = 0) :
    skipWhitespace lex = lex := by
  show skipWhitespaceF (lex.input.length + 1) lex = lex
  simp only [skipWhitespaceF]
  rw [if_neg (by omega), if_neg (by omega)]

theorem NextToken_parked (lex : Lexer) (h0 : lex.current = 0)
    (hpark : lex.input.length ≤ lex.currentPosition) :
    NextToken lex = (lex,
      { type := TOKEN_EOF, Literal := [], Line := lex.line, Column := lex.column },
      none) := by
  show dispatch (skipWhitespace lex) = _
  rw [skipWhitespace_at_zero lex h0, dispatch_at_eof lex h0, forward_parked lex hpark]

theorem current_zero_parked_noNUL (lex : Lexer) (hwf : WF lex) (hnz : 0 ∉ lex.input)
    (h0 : lex.current = 0) : lex.input.length ≤ lex.currentPosition := by
  by_contra hc
  have hlt : lex.currentPosition < lex.input.length := by omega
  obtain ⟨hc1, -⟩ := hwf.decoded hlt
  rw [drop_cons_of_lt lex.input lex.currentPosition hlt] at hc1
  have hb : lex.input.getD lex.currentPosition 0 ≠ 0 → False := by
    intro hbne
    exact decodeRune_ne_zero (lex.input.getD lex.currentPosition 0)
      (lex.input.drop (lex.currentPosition + 1)) hbne (by rw [← hc1, h0])
  have hb0 : lex.input.getD lex.currentPosition 0 = 0 := by
    by_contra hbne
    exact hb hbne
  have hmem : (0 : Nat) ∈ lex.input := by
    have := List.getD_eq_getElem lex.input 0 hlt
    rw [hb0] at this
    rw [this]
    exact List.getElem_mem hlt
  exact hnz hmem

/-! ### Termination of the driver loop -/

theorem lexAll_endsInEOF (fuel : Nat) :
    ∀ lex : Lexer, WF lex → lex.input.length - lex.currentPosition < fuel →
      endsInEOF (lexAll fuel lex) = true := by
  induction fuel with
  | zero =>
    intro lex hwf hf
    omega
  | succ fuel ih =>
    intro lex hwf hf
    by_cases he : (NextToken lex).2.1.type = TOKEN_EOF
    · have hstep : lexAll (fuel + 1) lex = [((NextToken lex).2.1, (NextToken lex).2.2)] := by
        simp only [lexAll, if_pos he]
      rw [hstep]
      simp only [endsInEOF, he, decide_True]
    · have hstep : lexAll (fuel + 1) lex =
          ((NextToken lex).2.1, (NextToken lex).2.2) :: lexAll fuel (NextToken lex).1 := by
        simp only [lexAll, if_neg he]
      obtain ⟨d1, d2, -, d4, -, -, -⟩ := NextToken_inv lex hwf
      have hadv := d4 he
      have hlt : lex.currentPosition < lex.input.length := by
        by_contra hge
        have h0 := hwf.at_end (by omega)
        rw [NextToken_parked lex h0 (by omega)] at he
        exact he rfl
      have hrec := ih (NextToken lex).1 d2 (by rw [d1]; omega)
      rw [hstep]
      rcases hlist : lexAll fuel (NextToken lex).1 with - | ⟨y, ys⟩
      · rw [hlist] at hrec
        exact absurd hrec (by decide)
      · rw [hlist] at hrec
        exact hrec

theorem dispatch_eof_current (lex : Lexer) (hwf : WF lex)
    (h : (dispatch lex).2.1.type = TOKEN_EOF) : lex.current = 0 := by
  by_cases h1 : lex.current = 40
  · rw [dispatch_at_lparen lex h1] at h
    exact absurd h (by decide : ¬ (TOKEN_LPAREN = TOKEN_EOF))
  by_cases h2 : lex.current = 41
  · rw [dispatch_at_rparen lex h2] at h
    exact absurd h (by decide : ¬ (TOKEN_RPAREN = TOKEN_EOF))
  by_cases h3 : lex.current = 123
  · rw [dispatch_at_lbrace lex h3] at h
    exact absurd h (by decide : ¬ (TOKEN_LBRACE = TOKEN_EOF))
  by_cases h4 : lex.current = 125
  · rw [dispatch_at_rbrace lex h4] at h
    exact absurd h (by decide : ¬ (TOKEN_RBRACE = TOKEN_EOF))
  by_cases h5 : lex.current = 91
  · rw [dispatch_at_lbracket lex h5] at h
    exact absurd h (by decide : ¬ (TOKEN_LBRACKET = TOKEN_EOF))
  by_cases h6 : lex.current = 93
  · rw [dispatch_at_rbracket lex h6] at h
    exact absurd h (by decide : ¬ (TOKEN_RBRACKET = TOKEN_EOF))
  by_cases h7 : lex.current = 46
  · by_cases hp : isDigit (peekChar lex) = true
    · rw [dispatch_at_dot_float lex h7 hp] at h
      obtain ⟨-, -, -, -, -, j6, -⟩ := readNumber_inv lex (tokStart TOKEN_INT lex) hwf
      rcases read_type readNumber TOKEN_INT lex with ht | ht <;> rw [h] at ht
      · rcases j6 with j6 | j6 <;> rw [j6] at ht
        · exact absurd ht.symm (by decide : ¬ (TOKEN_INT = TOKEN_EOF))
        · exact absurd ht (by decide : ¬ (TOKEN_EOF = TOKEN_FLOAT))
      · exact absurd ht (by decide : ¬ (TOKEN_EOF = ([] : TokenType)))
    · rw [dispatch_at_dot_bare lex h7 hp] at h
      exact absurd h (by decide : ¬ (TOKEN_DOT = TOKEN_EOF))
  by_cases h8 : lex.current = 58
  · rw [dispatch_at_colon lex h8] at h
    exact absurd h (by decide : ¬ (TOKEN_COLON = TOKEN_EOF))
  by_cases h9 : lex.current = 124
  · rw [dispatch_at_pipe lex h9] at h
    exact absurd h (by decide : ¬ (TOKEN_PIPE = TOKEN_EOF))
  by_cases h10 : lex.current = 39
  · rw [dispatch_at_quote lex h10] at h
    exact absurd h (by decide : ¬ (TOKEN_QUOTE = TOKEN_EOF))
  by_cases h11 : lex.current = 95
  · rw [dispatch_at_under lex h11] at h
    exact absurd h (by decide : ¬ (TOKEN_UNDER = TOKEN_EOF))
  by_cases h12 : lex.current = 34
  · rw [dispatch_at_string lex h12] at h
    obtain ⟨-, -, -, -, -, j6, -, -⟩ := readString_inv lex (tokStart TOKEN_DQSTRING lex) hwf
    rcases read_type readString TOKEN_DQSTRING lex with ht | ht <;> rw [h] at ht
    · rw [j6] at ht
      exact absurd ht (by decide : ¬ (TOKEN_EOF = TOKEN_DQSTRING))
    · exact absurd ht (by decide : ¬ (TOKEN_EOF = ([] : TokenType)))
  by_cases h13 : lex.current = 59
  · rw [dispatch_at_comment lex h13] at h
    obtain ⟨-, -, -, -, -, j6, -, -⟩ := readComment_inv lex (tokStart TOKEN_COMMENT lex) hwf
    rcases read_type readComment TOKEN_COMMENT lex with ht | ht <;> rw [h] at ht
    · rw [j6] at ht
      exact absurd ht (by decide : ¬ (TOKEN_EOF = TOKEN_COMMENT))
    · exact absurd ht (by decide : ¬ (TOKEN_EOF = ([] : TokenType)))
  by_cases h14 : lex.current = 0
  · exact h14
  by_cases h15 : canStartSymbol lex.current = true
  · rw [dispatch_at_symbol lex h15 h11] at h
    obtain ⟨-, -, -, -, -, j6, -, -⟩ := readSymbol_inv lex (tokStart TOKEN_SYMBOL lex) hwf
    rcases read_type readSymbol TOKEN_SYMBOL lex with ht | ht <;> rw [h] at ht
    · rw [j6] at ht
      exact absurd ht (by decide : ¬ (TOKEN_EOF = TOKEN_SYMBOL))
    · exact absurd ht (by decide : ¬ (TOKEN_EOF = ([] : TokenType)))
  by_cases h16 : isDigit lex.current = true
  · rw [dispatch_at_digit lex h16] at h
    obtain ⟨-, -, -, -, -, j6, -⟩ := readNumber_inv lex (tokStart TOKEN_INT lex) hwf
    rcases read_type readNumber TOKEN_INT lex with ht | ht <;> rw [h] at ht
    · rcases j6 with j6 | j6 <;> rw [j6] at ht
      · exact absurd ht.symm (by decide : ¬ (TOKEN_INT = TOKEN_EOF))
      · exact absurd ht (by decide : ¬ (TOKEN_EOF = TOKEN_FLOAT))
    · exact absurd ht (by decide : ¬ (TOKEN_EOF = ([] : TokenType)))
  · rw [dispatch_at_illegal lex h1 h2 h3 h4 h5 h6 h7 h8 h9 h10 h11 h12 h13 h14 h15 h16] at h
    exact absurd h (by decide : ¬ (TOKEN_ILLEGAL = TOKEN_EOF))

/-! ### The round-trip decomposition of the driver -/

theorem lexPieces_join (fuel : Nat) :
    ∀ lex : Lexer, WF lex → utf8Clean (lex.input.drop lex.currentPosition) = true →
      lex.input.length - lex.currentPosition < fuel →
      (lexPieces fuel lex).flatten = lex.input.drop lex.currentPosition := by
  induction fuel with
  | zero =>
    intro lex hwf hcl hf
    omega
  | succ fuel ih =>
    intro lex hwf hcl hf
    obtain ⟨s1, s2, s3⟩ := NextToken_slices lex hwf hcl
    by_cases he : (NextToken lex).2.1.type = TOKEN_EOF
    · have hstep : lexPieces (fuel + 1) lex =
          [slice lex.input lex.currentPosition (skipWhitespace lex).currentPosition ++
            litOf (NextToken lex)] := by
        simp only [lexPieces, if_pos he]
      rw [hstep]
      simp only [List.flatten_cons, List.flatten_nil, List.append_nil]
      rw [s2, s3 he, List.drop_length, List.append_nil]
    · have hstep : lexPieces (fuel + 1) lex =
          (slice lex.input lex.currentPosition (skipWhitespace lex).currentPosition ++
            litOf (NextToken lex)) :: lexPieces fuel (NextToken lex).1 := by
        simp only [lexPieces, if_neg he]
      obtain ⟨d1, d2, -, d4, -, -, -⟩ := NextToken_inv lex hwf
      have hadv := d4 he
      have hlt : lex.currentPosition < lex.input.length := by
        by_contra hge
        have h0 := hwf.at_end (by omega)
        rw [NextToken_parked lex h0 (by omega)] at he
        exact he rfl
      have hrec := ih (NextToken lex).1 d2 (by rw [d1]; exact s1) (by rw [d1]; omega)
      rw [hstep]
      simp only [List.flatten_cons]
      rw [hrec, d1, ← s2]

/-! ### Further helpers for the claims -/

theorem decode_of_ascii (b : Nat) (rest : List Nat) (h : b < 0x80) :
    decodeRune (b :: rest) = (b, 1) := by
  simp only [decodeRune]
  rw [if_pos h]

theorem skipWhitespace_stay (lex : Lexer)
    (h : ¬(lex.current = 32 ∨ lex.current = 9 ∨ lex.current = 13 ∨ lex.current = 10)) :
    skipWhitespace lex = lex := by
  show skipWhitespaceF (lex.input.length + 1) lex = lex
  simp only [skipWhitespaceF]
  rw [if_neg (by tauto), if_neg (by tauto)]

theorem NewLexer_pos (input : List Nat) : (NewLexer input).currentPosition = 0 := by
  simp only [NewLexer]
  split_ifs with h
  · rfl
  · simp only [forward]
    split_ifs <;> rfl

theorem readSymbolF_digits (ds : List Nat) :
    ∀ (fuel : Nat) (lex : Lexer), WF lex →
      lex.input.drop lex.currentPosition = ds → (∀ d ∈ ds, 48 ≤ d ∧ d ≤ 57) →
      lex.input.length - lex.currentPosition < fuel →
      (readSymbolF fuel lex).currentPosition = lex.input.length ∧
      (readSymbolF fuel lex).current = 0 ∧
      (readSymbolF fuel lex).input = lex.input := by
  induction ds with
  | nil =>
    intro fuel lex hwf hdrop hds hf
    have hpark : lex.input.length ≤ lex.currentPosition := by
      by_contra hc
      rw [drop_cons_of_lt lex.input lex.currentPosition (by omega)] at hdrop
      exact absurd hdrop (by simp)
    have hpos : lex.currentPosition = lex.input.length := by
      have := hwf.pos_le
      omega
    have h0 := hwf.at_end (by omega)
    have hstay : readSymbolF fuel lex = lex := by
      cases fuel with
      | zero => rfl
      | succ fuel =>
        simp only [readSymbolF]
        rw [if_neg (by rw [h0]; decide)]
    rw [hstay]
    exact ⟨hpos, h0, rfl⟩
  | cons d ds ih =>
    intro fuel lex hwf hdrop hds hf
    have hlt : lex.currentPosition < lex.input.length := by
      by_contra hc
      rw [List.drop_eq_nil_of_le (by omega)] at hdrop
      exact absurd hdrop (by simp)
    obtain ⟨hc1, hc2⟩ := hwf.decoded hlt
    rw [hdrop, decode_of_ascii d ds (by have := hds d (by simp); omega)] at hc1 hc2
    have hdig : isDigit lex.current = true := by
      simp only [isDigit, decide_eq_true_eq]
      have := hds d (by simp)
      omega
    cases fuel with
    | zero => omega
    | succ fuel =>
      have hstep : readSymbolF (fuel + 1) lex = readSymbolF fuel (forward lex) := by
        simp only [readSymbolF]
        rw [if_pos (by rw [hdig]; simp)]
      have hpos1 : (forward lex).currentPosition = lex.currentPosition + 1 := by
        rw [forward_pos lex hlt, hc2]
      have hdrop1 : (forward lex).input.drop (forward lex).currentPosition = ds := by
        rw [forward_input, hpos1]
        have : lex.input.drop (lex.currentPosition + 1) =
            List.drop 1 (lex.input.drop lex.currentPosition) := by
          rw [List.drop_drop]
        rw [this, hdrop]
        rfl
      obtain ⟨k1, k2, k3⟩ := ih fuel (forward lex) (forward_WF lex hwf) hdrop1
        (fun d hd => hds d (by simp [hd])) (by rw [forward_input, hpos1]; omega)
      rw [hstep]
      rw [forward_input] at k1 k3
      exact ⟨by rw [k1], k2, k3⟩

theorem Cause_WithStrhex_IAS (v : List Nat) :
    Cause (WithStrhex InvalidAfterSymbol v) = InvalidAfterSymbol := rfl

theorem readSymbol_fail (lex : Lexer) (tok : Token) :
    (readSymbol lex tok).2.2 = [] ∨
    ∃ a, (readSymbol lex tok).2.2 = WithStrhex InvalidAfterSymbol a := by
  simp only [readSymbol]
  split_ifs
  · exact Or.inl rfl
  · exact Or.inr ⟨_, rfl⟩
  · exact Or.inr ⟨_, rfl⟩

/-! ### The claims -/

/-- Claim C1, counterexample: the claim quantifies over every input string, but
on the input `"\x00a"` (a NUL byte followed by `a`) the first call already
returns an `EOF` token, and the call after that first `EOF` returns a `SYMBOL`
token rather than `EOF` again: the zero byte acts as the sentinel for the EOF
case of the dispatch switch, yet the cursor still advances past it. -/
theorem C1_counterexample :
    (NextToken (NewLexer [0, 97])).2.1.type = TOKEN_EOF ∧
    (NextToken (NextToken (NewLexer [0, 97])).1).2.1.type = TOKEN_SYMBOL ∧
    TOKEN_SYMBOL ≠ TOKEN_EOF := by decide

/-- Claim C1 (amended): for every input containing no NUL byte, exhaustively
calling `NextToken` produces an `EOF` token within `length + 1` calls, and once
a call has returned an `EOF` token the lexer is parked: every subsequent call
leaves the state unchanged and returns the very same `EOF` token (in particular
at the same line and the same column), with no error. -/
theorem C1_eof_terminal (input : List Nat) (hnz : (0 : Nat) ∉ input) :
    endsInEOF (lexAll (input.length + 1) (NewLexer input)) = true ∧
    ∀ lex : Lexer, Reachable input lex → (NextToken lex).2.1.type = TOKEN_EOF →
      NextToken (NextToken lex).1 = ((NextToken lex).1, (NextToken lex).2.1, none) := by
  constructor
  · exact lexAll_endsInEOF (input.length + 1) (NewLexer input) (NewLexer_WF input)
      (by rw [NewLexer_input]; omega)
  · intro lex hr he
    obtain ⟨hwf, hinp⟩ := Reachable_WF input lex hr
    obtain ⟨w1, w2, -, -, -, -⟩ := skipWhitespace_inv lex hwf
    have he2 : (dispatch (skipWhitespace lex)).2.1.type = TOKEN_EOF := he
    have h0 := dispatch_eof_current (skipWhitespace lex) w2 he2
    have hnz2 : (0 : Nat) ∉ (skipWhitespace lex).input := by
      rw [w1, hinp]
      exact hnz
    have hpark := current_zero_parked_noNUL (skipWhitespace lex) w2 hnz2 h0
    have hNT : NextToken lex = ((skipWhitespace lex),
        { type := TOKEN_EOF, Literal := [], Line := (skipWhitespace lex).line,
          Column := (skipWhitespace lex).column }, none) := by
      show dispatch (skipWhitespace lex) = _
      rw [dispatch_at_eof (skipWhitespace lex) h0, forward_parked (skipWhitespace lex) hpark]
    rw [hNT]
    exact NextToken_parked (skipWhitespace lex) h0 hpark

/-- Claim C1, witness: the amended theorem applied to the one-byte input `a`. -/
theorem C1_eof_terminal_witness :
    ((0 : Nat) ∉ ([97] : List Nat)) ∧
    endsInEOF (lexAll 2 (NewLexer [97])) = true ∧
    NextToken (NextToken (NextToken (NewLexer [97])).1).1 =
      ((NextToken (NextToken (NewLexer [97])).1).1,
       (NextToken (NextToken (NewLexer [97])).1).2.1, none) := by
  refine ⟨by decide, (C1_eof_terminal [97] (by decide)).1, ?_⟩
  exact (C1_eof_terminal [97] (by decide)).2 (NextToken (NewLexer [97])).1
    (Reachable.step Reachable.base) (by decide)

/-- Claim C2, counterexample: the claim quantifies over every input string, but
on the one-byte input `0xFF` (not valid UTF-8) the single `ILLEGAL` token
produced carries the replacement character as its literal, whose three UTF-8
bytes differ from the source byte, so the concatenation does not reproduce the
input byte-for-byte.  (A NUL byte similarly breaks the round trip: it is
consumed by an `EOF` token with an empty literal.) -/
theorem C2_roundtrip_counterexample :
    (lexPieces 2 (NewLexer [255])).flatten ≠ [255] := by decide

/-- Claim C2 (amended): for every input that is cleanly UTF-8 decodable (well
formed UTF-8 with no NUL byte), concatenating, in driver order, the exact
whitespace bytes skipped by each call followed by the literal of the token it
produced (the error-carried token for failing calls) reproduces the input
byte-for-byte. -/
theorem C2_roundtrip (input : List Nat) (hcl : utf8Clean input = true) :
    (lexPieces (input.length + 1) (NewLexer input)).flatten = input := by
  have hwf := NewLexer_WF input
  have hcl2 : utf8Clean ((NewLexer input).input.drop (NewLexer input).currentPosition)
      = true := by
    rw [NewLexer_input, NewLexer_pos, List.drop_zero]
    exact hcl
  have hbd : (NewLexer input).input.length - (NewLexer input).currentPosition <
      input.length + 1 := by
    rw [NewLexer_input]
    omega
  have h := lexPieces_join (input.length + 1) (NewLexer input) hwf hcl2 hbd
  rwa [NewLexer_input, NewLexer_pos, List.drop_zero] at h

/-- Claim C2, witness: the amended round trip on a mixed concrete program with
whitespace, a paren, a symbol, a string and a float. -/
theorem C2_roundtrip_witness :
    utf8Clean (strBytes "(a \"b\" 1.5)") = true ∧
    (lexPieces ((strBytes "(a \"b\" 1.5)").length + 1)
      (NewLexer (strBytes "(a \"b\" 1.5)"))).flatten = strBytes "(a \"b\" 1.5)" :=
  ⟨by decide, C2_roundtrip (strBytes "(a \"b\" 1.5)") (by decide)⟩

/-- Claim C4: on input `1.2.3`, the first call fails with `TwoDotsInFloat`
carrying a `FLOAT` token with literal `1.2` (leaving the cursor on the second
dot, byte position 3), the second call succeeds with a `FLOAT` token with
literal `.3`, and the third call returns `EOF`. -/
theorem C4_two_dots :
    (NextToken (NewLexer (strBytes "1.2.3"))).2.2 =
      some { token := { type := TOKEN_FLOAT, Literal := strBytes "1.2", Line := 1,
                        Column := 0 },
             reason := TwoDotsInFloat } ∧
    (NextToken (NewLexer (strBytes "1.2.3"))).1.currentPosition = 3 ∧
    (NextToken (NextToken (NewLexer (strBytes "1.2.3"))).1).2.2 = none ∧
    (NextToken (NextToken (NewLexer (strBytes "1.2.3"))).1).2.1 =
      { type := TOKEN_FLOAT, Literal := strBytes ".3", Line := 1, Column := 3 } ∧
    (NextToken (NextToken (NextToken (NewLexer (strBytes "1.2.3"))).1).1).2.1.type =
      TOKEN_EOF := by decide

/-- Claim C5: every `NextToken` call on a reachable lexer state either returns
an `EOF` token or strictly advances the byte cursor (also when it returns a
`LexicalError`), and consequently the driver loop that calls `NextToken` until
`EOF` terminates within `length + 1` calls. -/
theorem C5_progress (input : List Nat) (lex : Lexer) (hr : Reachable input lex) :
    ((NextToken lex).2.1.type = TOKEN_EOF ∨
      lex.currentPosition < (NextToken lex).1.currentPosition) ∧
    endsInEOF (lexAll (input.length + 1) lex) = true := by
  obtain ⟨hwf, hinp⟩ := Reachable_WF input lex hr
  constructor
  · by_cases he : (NextToken lex).2.1.type = TOKEN_EOF
    · exact Or.inl he
    · obtain ⟨-, -, -, d4, -, -, -⟩ := NextToken_inv lex hwf
      exact Or.inr (d4 he)
  · exact lexAll_endsInEOF (input.length + 1) lex hwf (by rw [hinp]; omega)

/-- Claim C5, witness: progress and termination on the input `(`, whose first
call produces an error-free `LPAREN` token, from the initial state. -/
theorem C5_progress_witness :
    ((NextToken (NewLexer [40])).2.1.type = TOKEN_EOF ∨
      (NewLexer [40]).currentPosition < (NextToken (NewLexer [40])).1.currentPosition) ∧
    endsInEOF (lexAll 2 (NewLexer [40])) = true :=
  C5_progress [40] (NewLexer [40]) Reachable.base

/-- Claim C6, counterexample: lexing the string literal `"a\<newline>b"` (a
backslash-escaped newline inside a string) consumes one `\n` byte — the cursor
moves from 0 to 6 and the consumed prefix contains exactly one newline — yet
the line counter stays 1, whereas the claim requires it to become 2 (one
increment for every `\n` consumed, wherever it occurs). -/
theorem C6_counterexample :
    (NextToken (NewLexer [34, 97, 92, 10, 98, 34])).1.line = 1 ∧
    (NextToken (NewLexer [34, 97, 92, 10, 98, 34])).1.currentPosition = 6 ∧
    ([34, 97, 92, 10, 98, 34].take 6).count 10 = 1 ∧
    (NextToken (NewLexer [34, 97, 92, 10, 98, 34])).2.2 = none := by decide

/-- Claim C6 (amended): on every reachable state the line counter is 1-based;
one `NextToken` call increments it exactly once per `\n` consumed during the
whitespace-skipping phase, and the reading phase (the only other place where a
`\n` can be consumed, namely as a backslash-escape target inside a string
literal) never changes the line counter. -/
theorem C6_line_accounting (input : List Nat) (lex : Lexer) (hr : Reachable input lex) :
    1 ≤ lex.line ∧
    (skipWhitespace lex).line = lex.line +
      ((slice input lex.currentPosition (skipWhitespace lex).currentPosition).count 10
        : Int) ∧
    (NextToken lex).1.line = (skipWhitespace lex).line := by
  obtain ⟨hwf, hinp⟩ := Reachable_WF input lex hr
  obtain ⟨-, -, -, -, w5, -⟩ := skipWhitespace_inv lex hwf
  obtain ⟨-, -, -, -, d5, -, -⟩ := NextToken_inv lex hwf
  refine ⟨Reachable_line input lex hr, ?_, d5⟩
  rw [← hinp]
  exact w5

/-- Claim C6, witness: the amended accounting on the input `\na` (a newline
then a letter), whose first call skips one newline, moving to line 2. -/
theorem C6_line_accounting_witness :
    (1 ≤ (NewLexer [10, 97]).line ∧
      (skipWhitespace (NewLexer [10, 97])).line = (NewLexer [10, 97]).line +
        ((slice [10, 97] (NewLexer [10, 97]).currentPosition
          (skipWhitespace (NewLexer [10, 97])).currentPosition).count 10 : Int) ∧
      (NextToken (NewLexer [10, 97])).1.line =
        (skipWhitespace (NewLexer [10, 97])).line) ∧
    (NextToken (NewLexer [10, 97])).1.line = 2 :=
  ⟨C6_line_accounting [10, 97] (NewLexer [10, 97]) Reachable.base, by decide⟩

/-- Claim C7: advancing the cursor over n decoded characters adds exactly n to
the column counter, independently of the byte widths of those characters (the
hypothesis only demands that the cursor is not yet at the end of the buffer at
each of the n steps). -/
theorem C7_column_chars (lex : Lexer) (n : Nat)
    (h : ∀ i, i < n → (forwardN i lex).currentPosition < lex.input.length) :
    (forwardN n lex).column = lex.column + n := by
  induction n generalizing lex with
  | zero =>
    show lex.column = lex.column + ((0 : Nat) : Int)
    omega
  | succ n ih =>
    have h0 : lex.currentPosition < lex.input.length := h 0 (by omega)
    have hstep : forwardN (n + 1) lex = forwardN n (forward lex) := rfl
    have hcol := forward_column lex h0
    have hrec := ih (forward lex) ?_
    · rw [hstep, hrec, hcol]
      push_cast
      ring
    · intro i hi
      rw [forward_input]
      exact h (i + 1) (by omega)

/-- Claim C7, witness: four two-byte Greek letters advance the column by 4
while the byte position advances by 8. -/
theorem C7_column_chars_witness :
    (∀ i, i < 4 →
      (forwardN i (NewLexer (strBytes "λλλλ"))).currentPosition <
        (NewLexer (strBytes "λλλλ")).input.length) ∧
    (forwardN 4 (NewLexer (strBytes "λλλλ"))).column =
      (NewLexer (strBytes "λλλλ")).column + 4 ∧
    (forwardN 4 (NewLexer (strBytes "λλλλ"))).currentPosition = 8 ∧
    (NewLexer (strBytes "λλλλ")).column = 0 :=
  ⟨by decide, C7_column_chars (NewLexer (strBytes "λλλλ")) 4 (by decide), by decide,
   by decide⟩

/-- Claim C3, counterexample: on the input `"hello"` the lexer succeeds with a
`STRING` token whose literal is the seven source bytes `"hello"` INCLUDING both
quotes, not the five bytes `hello` strictly between them as the claim states:
the `read` wrapper slices the literal from the position of the opening quote to
just past the closing one. -/
theorem C3_counterexample :
    (NextToken (NewLexer (strBytes "\"hello\""))).2.2 = none ∧
    (NextToken (NewLexer (strBytes "\"hello\""))).2.1.type = TOKEN_DQSTRING ∧
    (NextToken (NewLexer (strBytes "\"hello\""))).2.1.Literal = strBytes "\"hello\"" ∧
    (NextToken (NewLexer (strBytes "\"hello\""))).2.1.Literal ≠ strBytes "hello" := by
  decide

/-- Claim C3 (amended): every successfully lexed string token has type `STRING`
and its literal is the opening double quote, then the raw (unescaped) source
text between the quotes, then the closing double quote — both quotes are part
of the literal. -/
theorem C3_string_quotes (input : List Nat) (lex : Lexer) (hr : Reachable input lex)
    (h34 : (skipWhitespace lex).current = 34)
    (hok : (NextToken lex).2.2 = none) :
    (NextToken lex).2.1.type = TOKEN_DQSTRING ∧
    ∃ mid, (NextToken lex).2.1.Literal = 34 :: (mid ++ [34]) := by
  obtain ⟨hwf, hinp⟩ := Reachable_WF input lex hr
  obtain ⟨w1, w2, -, -, -, -⟩ := skipWhitespace_inv lex hwf
  have hd : NextToken lex = read readString TOKEN_DQSTRING (skipWhitespace lex) :=
    dispatch_at_string (skipWhitespace lex) h34
  rw [hd] at hok ⊢
  have hfail := (read_err_none readString TOKEN_DQSTRING (skipWhitespace lex)).mp hok
  rw [read_token_success readString TOKEN_DQSTRING (skipWhitespace lex) hfail]
  have hwf1 := forward_WF (skipWhitespace lex) w2
  obtain ⟨i1, i2, i3, i4, i5, i6⟩ := readStringF_inv ((skipWhitespace lex).input.length + 1)
    (forward (skipWhitespace lex)) hwf1 (by rw [forward_input]; omega)
  rw [forward_input] at i1 i6
  have hA : (readString (skipWhitespace lex)
        (tokStart TOKEN_DQSTRING (skipWhitespace lex))).1 =
      (readStringF ((skipWhitespace lex).input.length + 1)
        (forward (skipWhitespace lex))).1 := rfl
  have hA2 : (readString (skipWhitespace lex)
        (tokStart TOKEN_DQSTRING (skipWhitespace lex))).2.2 =
      (readStringF ((skipWhitespace lex).input.length + 1)
        (forward (skipWhitespace lex))).2 := rfl
  rw [hA2] at hfail
  obtain ⟨mid, hmid⟩ := i6 hfail
  have hlt := current_pos_lt (skipWhitespace lex) w2 (by omega)
  have hascii := ascii_at (skipWhitespace lex) w2 hlt (by omega)
  have hpos1 : (forward (skipWhitespace lex)).currentPosition =
      (skipWhitespace lex).currentPosition + 1 := by
    rw [forward_pos (skipWhitespace lex) hlt, hascii.2]
  refine ⟨rfl, mid, ?_⟩
  show slice (readString (skipWhitespace lex)
      (tokStart TOKEN_DQSTRING (skipWhitespace lex))).1.input
      (skipWhitespace lex).currentPosition
      (readString (skipWhitespace lex)
        (tokStart TOKEN_DQSTRING (skipWhitespace lex))).1.currentPosition =
    34 :: (mid ++ [34])
  rw [hA, i1]
  rw [slice_append (skipWhitespace lex).input (skipWhitespace lex).currentPosition
    ((skipWhitespace lex).currentPosition + 1)
    (readStringF ((skipWhitespace lex).input.length + 1)
      (forward (skipWhitespace lex))).1.currentPosition (by omega) (by omega)]
  rw [slice_one (skipWhitespace lex).input (skipWhitespace lex).currentPosition hlt,
    hascii.1, h34]
  rw [← hpos1, hmid]
  rfl

/-- Claim C3, witness: the amended statement applied to the input `"hi"` from
the initial state. -/
theorem C3_string_quotes_witness :
    ((skipWhitespace (NewLexer (strBytes "\"hi\""))).current = 34) ∧
    ((NextToken (NewLexer (strBytes "\"hi\""))).2.2 = none) ∧
    ((NextToken (NewLexer (strBytes "\"hi\""))).2.1.type = TOKEN_DQSTRING ∧
      ∃ mid, (NextToken (NewLexer (strBytes "\"hi\""))).2.1.Literal =
        34 :: (mid ++ [34])) :=
  ⟨by decide, by decide,
   C3_string_quotes (strBytes "\"hi\"") (NewLexer (strBytes "\"hi\"")) Reachable.base
     (by decide) (by decide)⟩

/-- Claim C8, counterexample: `_` can start a symbol according to
`canStartSymbol`, but on the input `_a` the dispatch switch catches `_` first
and emits a one-character `UNDER` token, not a single `SYMBOL` token with
literal `_a` as the claim states. -/
theorem C8_counterexample :
    canStartSymbol 95 = true ∧
    (NextToken (NewLexer (strBytes "_a"))).2.1.type = TOKEN_UNDER ∧
    (NextToken (NewLexer (strBytes "_a"))).2.1.Literal = strBytes "_" ∧
    TOKEN_UNDER ≠ TOKEN_SYMBOL := by decide

/-- Claim C8 (amended): whenever the first character after whitespace can start
a symbol and is not `_` (which is dispatched as a one-character `UNDERSCORE`
token before symbol scanning is considered), `NextToken` performs symbol
scanning: the produced literal — of the `SYMBOL` token on success, or of the
token carried by the `InvalidAfterSymbol` failure — is exactly the maximal run
of symbol-continuing characters at that position. -/
theorem C8_symbol_run (input : List Nat) (lex : Lexer) (hr : Reachable input lex)
    (hs : canStartSymbol (skipWhitespace lex).current = true)
    (h95 : (skipWhitespace lex).current ≠ 95) :
    NextToken lex = read readSymbol TOKEN_SYMBOL (skipWhitespace lex) ∧
    litOf (NextToken lex) = symbolRun (input.drop (skipWhitespace lex).currentPosition) ∧
    ((NextToken lex).2.2 = none → (NextToken lex).2.1.type = TOKEN_SYMBOL) ∧
    (∀ e, (NextToken lex).2.2 = some e → e.token.type = TOKEN_SYMBOL ∧
      e.token.Literal = symbolRun (input.drop (skipWhitespace lex).currentPosition) ∧
      Cause e.reason = InvalidAfterSymbol) := by
  obtain ⟨hwf, hinp⟩ := Reachable_WF input lex hr
  obtain ⟨w1, w2, -, -, -, -⟩ := skipWhitespace_inv lex hwf
  have hd : NextToken lex = read readSymbol TOKEN_SYMBOL (skipWhitespace lex) :=
    dispatch_at_symbol (skipWhitespace lex) hs h95
  obtain ⟨j1, j2, j3, j4, j5, j6, j7, j8⟩ :=
    readSymbol_inv (skipWhitespace lex) (tokStart TOKEN_SYMBOL (skipWhitespace lex)) w2
  have hrun : slice (readSymbol (skipWhitespace lex)
        (tokStart TOKEN_SYMBOL (skipWhitespace lex))).1.input
      (skipWhitespace lex).currentPosition
      (readSymbol (skipWhitespace lex)
        (tokStart TOKEN_SYMBOL (skipWhitespace lex))).1.currentPosition =
      symbolRun (input.drop (skipWhitespace lex).currentPosition) := by
    rw [j1, j8, w1, hinp]
  refine ⟨hd, ?_, ?_, ?_⟩
  · rw [hd, read_litOf readSymbol TOKEN_SYMBOL (skipWhitespace lex)]
    exact hrun
  · intro hok
    rw [hd] at hok
    have hfail := (read_err_none readSymbol TOKEN_SYMBOL (skipWhitespace lex)).mp hok
    rw [hd, read_token_success readSymbol TOKEN_SYMBOL (skipWhitespace lex) hfail, j6]
    rfl
  · intro e he
    rw [hd] at he
    by_cases hfail : (readSymbol (skipWhitespace lex)
        (tokStart TOKEN_SYMBOL (skipWhitespace lex))).2.2 = []
    · rw [read_token_success readSymbol TOKEN_SYMBOL (skipWhitespace lex) hfail] at he
      exact absurd he (by simp)
    · rw [read_err_some readSymbol TOKEN_SYMBOL (skipWhitespace lex) hfail] at he
      have he2 := Option.some.inj he
      rw [← he2]
      refine ⟨by rw [j6]; rfl, hrun, ?_⟩
      rcases readSymbol_fail (skipWhitespace lex)
          (tokStart TOKEN_SYMBOL (skipWhitespace lex)) with hf | ⟨a, ha⟩
      · exact absurd hf hfail
      · show Cause (readSymbol (skipWhitespace lex)
            (tokStart TOKEN_SYMBOL (skipWhitespace lex))).2.2 = InvalidAfterSymbol
        rw [ha, Cause_WithStrhex_IAS]

/-- Claim C8, witness: the amended statement on the input `ab(`, whose maximal
run is `ab` and which lexes successfully. -/
theorem C8_symbol_run_witness :
    canStartSymbol (skipWhitespace (NewLexer (strBytes "ab("))).current = true ∧
    (skipWhitespace (NewLexer (strBytes "ab("))).current ≠ 95 ∧
    litOf (NextToken (NewLexer (strBytes "ab("))) =
      symbolRun ((strBytes "ab(").drop
        (skipWhitespace (NewLexer (strBytes "ab("))).currentPosition) ∧
    symbolRun (strBytes "ab(") = strBytes "ab" :=
  ⟨by decide, by decide,
   (C8_symbol_run (strBytes "ab(") (NewLexer (strBytes "ab(")) Reachable.base
     (by decide) (by decide)).2.1, by decide⟩

/-- Claim C9, counterexample: the Hebrew letter aleph (U+05D0) can start a
symbol, yet on input `a.א` the symbol `a` is rejected with `InvalidAfterSymbol`
because `peekChar` examines only the single byte after the dot — aleph's UTF-8
lead byte 0xD7, whose code point `×` is not a letter — contradicting the claim
that any symbol-starting character after the dot (multi-byte letters included)
makes the symbol succeed. -/
theorem C9_counterexample :
    canStartSymbol 0x5D0 = true ∧
    (decodeRune [0xD7, 0x90]).1 = 0x5D0 ∧
    ((NextToken (NewLexer [97, 46, 0xD7, 0x90])).2.2.map
      (fun e => Cause e.reason)) = some InvalidAfterSymbol := by decide

/-- Claim C9 (amended): after a symbol run (started by a non-underscore
symbol-start character) stops on a `.`, the lexer succeeds — returning the
`SYMBOL` token and leaving the cursor parked on the dot for the next call —
precisely when the single byte immediately after the dot, read as a character
by `peekChar`, can itself start a symbol; for a multi-byte character after the
dot only its UTF-8 lead byte is examined. -/
theorem C9_dot_method (input : List Nat) (lex : Lexer) (hr : Reachable input lex)
    (hs : canStartSymbol (skipWhitespace lex).current = true)
    (h95 : (skipWhitespace lex).current ≠ 95)
    (h46 : (readSymbolF ((skipWhitespace lex).input.length + 1)
      (skipWhitespace lex)).current = 46)
    (hpk : canStartSymbol (peekChar (readSymbolF ((skipWhitespace lex).input.length + 1)
      (skipWhitespace lex))) = true) :
    (NextToken lex).2.2 = none ∧
    (NextToken lex).2.1.type = TOKEN_SYMBOL ∧
    (NextToken lex).1 =
      readSymbolF ((skipWhitespace lex).input.length + 1) (skipWhitespace lex) ∧
    (NextToken lex).1.current = 46 := by
  obtain ⟨hwf, hinp⟩ := Reachable_WF input lex hr
  obtain ⟨w1, w2, -, -, -, -⟩ := skipWhitespace_inv lex hwf
  have hd : NextToken lex = read readSymbol TOKEN_SYMBOL (skipWhitespace lex) :=
    dispatch_at_symbol (skipWhitespace lex) hs h95
  have hsucc : readSymbol (skipWhitespace lex)
        (tokStart TOKEN_SYMBOL (skipWhitespace lex)) =
      (readSymbolF ((skipWhitespace lex).input.length + 1) (skipWhitespace lex),
       tokStart TOKEN_SYMBOL (skipWhitespace lex), []) := by
    simp only [readSymbol]
    rw [if_pos (Or.inr ⟨h46, hpk⟩)]
  have hfail : (readSymbol (skipWhitespace lex)
      (tokStart TOKEN_SYMBOL (skipWhitespace lex))).2.2 = [] := by
    rw [hsucc]
  rw [hd, read_token_success readSymbol TOKEN_SYMBOL (skipWhitespace lex) hfail]
  refine ⟨rfl, by rw [hsucc]; try rfl, by rw [hsucc]; try rfl, by rw [hsucc]; exact h46⟩

/-- Claim C9, witness: the amended statement on the input `ab.cd`: the run `ab`
stops on the dot, the byte after the dot is the letter `c`, and the call
succeeds with the cursor on the dot. -/
theorem C9_dot_method_witness :
    canStartSymbol (skipWhitespace (NewLexer (strBytes "ab.cd"))).current = true ∧
    (readSymbolF ((skipWhitespace (NewLexer (strBytes "ab.cd"))).input.length + 1)
      (skipWhitespace (NewLexer (strBytes "ab.cd")))).current = 46 ∧
    (NextToken (NewLexer (strBytes "ab.cd"))).2.2 = none ∧
    (NextToken (NewLexer (strBytes "ab.cd"))).2.1.type = TOKEN_SYMBOL ∧
    (NextToken (NewLexer (strBytes "ab.cd"))).1.current = 46 := by
  have h := C9_dot_method (strBytes "ab.cd") (NewLexer (strBytes "ab.cd"))
    Reachable.base (by decide) (by decide) (by decide) (by decide)
  exact ⟨by decide, by decide, h.1, h.2.1, h.2.2.2⟩

/-- Claim C10: an input consisting of `-` or `+` immediately followed by ASCII
digits lexes as one `SYMBOL` token whose literal is the sign together with all
the digits (not as an `INT` or `FLOAT`), followed by `EOF`: signs start symbol
scanning and digits continue a symbol. -/
theorem C10_sign_symbol (sign : Nat) (ds : List Nat) (hsign : sign = 45 ∨ sign = 43)
    (hne : ds ≠ []) (hds : ∀ d ∈ ds, 48 ≤ d ∧ d ≤ 57) :
    (NextToken (NewLexer (sign :: ds))).2.2 = none ∧
    (NextToken (NewLexer (sign :: ds))).2.1.type = TOKEN_SYMBOL ∧
    (NextToken (NewLexer (sign :: ds))).2.1.Literal = sign :: ds ∧
    (NextToken (NewLexer (sign :: ds))).2.1.type ≠ TOKEN_INT ∧
    (NextToken (NewLexer (sign :: ds))).2.1.type ≠ TOKEN_FLOAT ∧
    (NextToken (NextToken (NewLexer (sign :: ds))).1).2.1.type = TOKEN_EOF := by
  have hwf := NewLexer_WF (sign :: ds)
  have hinp := NewLexer_input (sign :: ds)
  have hpos := NewLexer_pos (sign :: ds)
  have hlt : (NewLexer (sign :: ds)).currentPosition <
      (NewLexer (sign :: ds)).input.length := by
    rw [hinp, hpos]
    simp
  obtain ⟨hc1, hc2⟩ := hwf.decoded hlt
  rw [hinp, hpos, List.drop_zero, decode_of_ascii sign ds (by omega)] at hc1 hc2
  have hsym : canStartSymbol (NewLexer (sign :: ds)).current = true := by
    rcases hsign with h | h <;> rw [hc1, h] <;> decide
  have hws : skipWhitespace (NewLexer (sign :: ds)) = NewLexer (sign :: ds) :=
    skipWhitespace_stay _ (by omega)
  have hNT : NextToken (NewLexer (sign :: ds)) =
      read readSymbol TOKEN_SYMBOL (NewLexer (sign :: ds)) := by
    show dispatch (skipWhitespace (NewLexer (sign :: ds))) = _
    rw [hws]
    exact dispatch_at_symbol _ hsym (by omega)
  have hstep : readSymbolF ((NewLexer (sign :: ds)).input.length + 1)
        (NewLexer (sign :: ds)) =
      readSymbolF (NewLexer (sign :: ds)).input.length
        (forward (NewLexer (sign :: ds))) := by
    simp only [readSymbolF]
    rw [if_pos (by rw [hsym]; simp)]
  have hpos1 : (forward (NewLexer (sign :: ds))).currentPosition = 1 := by
    rw [forward_pos (NewLexer (sign :: ds)) hlt, hc2, hpos]
    rfl
  have hdrop1 : (forward (NewLexer (sign :: ds))).input.drop
      (forward (NewLexer (sign :: ds))).currentPosition = ds := by
    rw [forward_input, hinp, hpos1]
    rfl
  obtain ⟨k1, k2, k3⟩ := readSymbolF_digits ds (NewLexer (sign :: ds)).input.length
    (forward (NewLexer (sign :: ds))) (forward_WF (NewLexer (sign :: ds)) hwf) hdrop1 hds
    (by rw [forward_input, hinp, hpos1]; simp)
  rw [forward_input] at k1 k3
  have hsucc : readSymbol (NewLexer (sign :: ds))
        (tokStart TOKEN_SYMBOL (NewLexer (sign :: ds))) =
      (readSymbolF ((NewLexer (sign :: ds)).input.length + 1) (NewLexer (sign :: ds)),
       tokStart TOKEN_SYMBOL (NewLexer (sign :: ds)), []) := by
    simp only [readSymbol]
    rw [if_pos (Or.inl (by rw [hstep, k2]; decide))]
  have hfail : (readSymbol (NewLexer (sign :: ds))
      (tokStart TOKEN_SYMBOL (NewLexer (sign :: ds)))).2.2 = [] := by
    rw [hsucc]
  have hlit : slice (readSymbol (NewLexer (sign :: ds))
        (tokStart TOKEN_SYMBOL (NewLexer (sign :: ds)))).1.input
      (NewLexer (sign :: ds)).currentPosition
      (readSymbol (NewLexer (sign :: ds))
        (tokStart TOKEN_SYMBOL (NewLexer (sign :: ds)))).1.currentPosition =
      sign :: ds := by
    rw [hsucc]
    show slice (readSymbolF ((NewLexer (sign :: ds)).input.length + 1)
        (NewLexer (sign :: ds))).input (NewLexer (sign :: ds)).currentPosition
      (readSymbolF ((NewLexer (sign :: ds)).input.length + 1)
        (NewLexer (sign :: ds))).currentPosition = sign :: ds
    rw [hstep, k3, k1, hpos, hinp, slice_drop, List.drop_zero]
  have hpark : NextToken (readSymbol (NewLexer (sign :: ds))
        (tokStart TOKEN_SYMBOL (NewLexer (sign :: ds)))).1 =
      ((readSymbol (NewLexer (sign :: ds))
          (tokStart TOKEN_SYMBOL (NewLexer (sign :: ds)))).1,
       { type := TOKEN_EOF, Literal := [],
         Line := (readSymbol (NewLexer (sign :: ds))
           (tokStart TOKEN_SYMBOL (NewLexer (sign :: ds)))).1.line,
         Column := (readSymbol (NewLexer (sign :: ds))
           (tokStart TOKEN_SYMBOL (NewLexer (sign :: ds)))).1.column }, none) := by
    apply NextToken_parked
    · rw [hsucc]
      show (readSymbolF ((NewLexer (sign :: ds)).input.length + 1)
        (NewLexer (sign :: ds))).current = 0
      rw [hstep, k2]
    · rw [hsucc]
      show (readSymbolF ((NewLexer (sign :: ds)).input.length + 1)
          (NewLexer (sign :: ds))).input.length ≤
        (readSymbolF ((NewLexer (sign :: ds)).input.length + 1)
          (NewLexer (sign :: ds))).currentPosition
      rw [hstep, k3, k1]
  rw [hNT, read_token_success readSymbol TOKEN_SYMBOL (NewLexer (sign :: ds)) hfail]
  refine ⟨rfl, by rw [hsucc]; rfl, hlit,
    by rw [hsucc]; exact (by decide : TOKEN_SYMBOL ≠ TOKEN_INT),
    by rw [hsucc]; exact (by decide : TOKEN_SYMBOL ≠ TOKEN_FLOAT), ?_⟩
  show (NextToken (readSymbol (NewLexer (sign :: ds))
      (tokStart TOKEN_SYMBOL (NewLexer (sign :: ds)))).1).2.1.type = TOKEN_EOF
  rw [hpark]

/-- Claim C10, witness: the input `-5` lexes as the single `SYMBOL` token `-5`
followed by `EOF`. -/
theorem C10_sign_symbol_witness :
    (NextToken (NewLexer [45, 53])).2.2 = none ∧
    (NextToken (NewLexer [45, 53])).2.1.type = TOKEN_SYMBOL ∧
    (NextToken (NewLexer [45, 53])).2.1.Literal = [45, 53] ∧
    (NextToken (NextToken (NewLexer [45, 53])).1).2.1.type = TOKEN_EOF := by
  have h := C10_sign_symbol 45 [53] (Or.inl rfl) (by simp) (by simp)
  exact ⟨h.1, h.2.1, h.2.2.1, h.2.2.2.2.2⟩

end Harp
